import Mathlib

/-!
Verification of the settlement engine of the shared-expenses repository.

The engine consists of three functions appearing in two source revisions:

* `splitBill` / `computeNetBalances` / `optimizeSettlements`
  from `src/app/page.tsx` (caps honoured whenever present, no universe
  initialisation, exact `= 0` removal test in the matching loop);
* `splitBill2` / `applyBill` / `computeNetBalances2` / `optimizeSettlements2`
  from the second revision (caps honoured only when strictly below the
  equal share, shortfall assigned to the payer, balances initialised for
  the fixed `users` universe, `0.01` tolerance in the matching loop).

JavaScript objects (`Record<string, number>`) are modelled as association
lists with insertion-order semantics (`Rec`); JS numbers are modelled as
rationals, so every arithmetic identity below is exact.
-/

namespace Expenses

/-! ### Definitions: the data model and the engine of both source revisions -/

/-- A JS `Record<string, number>`: entries in insertion order. -/
abbrev Rec := List (String × ℚ)

/-- Reading `r[k]`, with `0` for a missing key (the engine always guards
reads with `|| 0` or only reads keys it has written). -/
def rget : Rec → String → ℚ
  | [], _ => 0
  | p :: r, k => if p.1 = k then p.2 else rget r k

/-- Whether key `k` is present (`r[k] !== undefined`). -/
def rmem : Rec → String → Bool
  | [], _ => false
  | p :: r, k => p.1 == k || rmem r k

/-- Writing `r[k] = v`: overwrite the entry if the key is present, else
append at the end (JS objects keep insertion order). -/
def rset : Rec → String → ℚ → Rec
  | [], k, v => [(k, v)]
  | p :: r, k, v => if p.1 = k then (k, v) :: r else p :: rset r k v

/-- `r[k] = (r[k] || 0) + v`. -/
def addTo (r : Rec) (k : String) (v : ℚ) : Rec := rset r k (rget r k + v)

/-- `Object.keys r` in insertion order. -/
def rkeys (r : Rec) : List String := r.map Prod.fst

/-- Sum of `Object.values r`. -/
def sumValues (r : Rec) : ℚ := (r.map Prod.snd).sum

/-- Well-formedness of the model: a JS object cannot repeat a key. -/
def keysNodup (r : Rec) : Prop := (r.map Prod.fst).Nodup

instance (r : Rec) : Decidable (keysNodup r) := by
  unfold keysNodup; infer_instance

/-- A bill record (`interface Bill`); the optional `id` is irrelevant to
the engine and omitted, absent `maxContributions` is the empty record. -/
structure Bill where
  description : String
  amount : ℚ
  paidBy : String
  participants : List String
  maxContributions : Rec
deriving DecidableEq

/-- `bill.maxContributions[user] !== undefined`. -/
def capDefined (b : Bill) (u : String) : Bool := rmem b.maxContributions u

/-- `bill.maxContributions[user]` where defined (`0` otherwise; only read
under a `capDefined` guard). -/
def capVal (b : Bill) (u : String) : ℚ := rget b.maxContributions u

/-- Participants with a `maxContributions` entry, in participant order
(the first loop of `splitBill` in `page.tsx`). -/
def cappedList (b : Bill) : List String := b.participants.filter (fun u => capDefined b u)

/-- Participants without a `maxContributions` entry (`remainingParticipants`
in `page.tsx`). -/
def uncappedList (b : Bill) : List String := b.participants.filter (fun u => ! capDefined b u)

/-- `fixedTotal` of `splitBill` in `page.tsx`: sum of all caps of capped
participants. -/
def fixedTotal (b : Bill) : ℚ := ((cappedList b).map (capVal b)).sum

/-- `splitBill` from `page.tsx`: capped participants owe their cap, the
remainder is split equally among uncapped participants.  When every
participant is capped the division is by zero and no further share is
written (the loop body never runs), exactly as in the source. -/
def splitBill (b : Bill) : Rec :=
  let balances := (cappedList b).foldl (fun r u => rset r u (capVal b u)) []
  let remainingAmount := b.amount - fixedTotal b
  let share := remainingAmount / ((uncappedList b).length : ℚ)
  (uncappedList b).foldl (fun r u => rset r u share) balances

/-- The loop body of `computeNetBalances` in `page.tsx`: debit each
participant of the split and credit the payer with the bill amount. -/
def applyBillPage (net : Rec) (b : Bill) : Rec :=
  let split := splitBill b
  let net1 := split.foldl (fun n p => addTo n p.1 (- p.2)) net
  addTo net1 b.paidBy b.amount

/-- `computeNetBalances` from `page.tsx`: start from the empty record and
fold the bills. -/
def computeNetBalances (bills : List Bill) : Rec :=
  bills.foldl applyBillPage []

/-- `amount / participants.length` (the `equalShare` of the second
revision). -/
def equalShare (b : Bill) : ℚ := b.amount / (b.participants.length : ℚ)

/-- The second revision's cap test in `splitBill`: a cap counts only when
defined and strictly below the equal share. -/
def cappedBelow (b : Bill) (u : String) : Bool :=
  capDefined b u && decide (capVal b u < equalShare b)

/-- Participants whose cap is honoured by the second revision's splitter. -/
def cappedList2 (b : Bill) : List String := b.participants.filter (cappedBelow b)

/-- `remainingParticipants` of the second revision's splitter. -/
def uncappedList2 (b : Bill) : List String := b.participants.filter (fun u => ! cappedBelow b u)

/-- `totalAssigned` of the second revision's splitter. -/
def totalAssigned2 (b : Bill) : ℚ := ((cappedList2 b).map (capVal b)).sum

/-- `splitBill` from the second revision: balances are initialised to `0`
for every participant, caps strictly below the equal share are honoured,
the rest is split equally among the remaining participants; if no
participant remains and money is left over, the payer's balance is set to
the leftover. -/
def splitBill2 (b : Bill) : Rec :=
  let balances0 := b.participants.foldl (fun r u => rset r u 0) []
  let balances1 := (cappedList2 b).foldl (fun r u => rset r u (capVal b u)) balances0
  let remainingAmount := b.amount - totalAssigned2 b
  if 0 < (uncappedList2 b).length then
    let share := remainingAmount / ((uncappedList2 b).length : ℚ)
    (uncappedList2 b).foldl (fun r u => rset r u share) balances1
  else if 0 < remainingAmount then rset balances1 b.paidBy remainingAmount
  else balances1

/-- The fixed participant universe (`const users = [...]`). -/
def users : List String := ["Jacqueline", "Kevin", "Kimberly", "Silvia", "Verana"]

/-- The second revision's aggregator cap test: an entry counts only when
defined and strictly positive (`maxContribution !== undefined &&
maxContribution > 0`). -/
def hasPosCap (b : Bill) (u : String) : Bool :=
  capDefined b u && decide (0 < capVal b u)

/-- `participantsWithMax` of the second revision's aggregator. -/
def withMaxList (b : Bill) : List String := b.participants.filter (hasPosCap b)

/-- `participantsWithoutMax` of the second revision's aggregator. -/
def withoutMaxList (b : Bill) : List String := b.participants.filter (fun u => ! hasPosCap b u)

/-- `totalAssigned` of the second revision's aggregator. -/
def assignedTotal (b : Bill) : ℚ := ((withMaxList b).map (capVal b)).sum

/-- The loop body of `computeNetBalances` in the second revision: credit
the payer, debit every positively-capped participant by their cap, split
the remainder equally among the others, and charge a leftover (if any and
nobody remains) to the payer. -/
def applyBill (net : Rec) (b : Bill) : Rec :=
  let net1 := addTo net b.paidBy b.amount
  let net2 := (withMaxList b).foldl (fun n u => addTo n u (- capVal b u)) net1
  let remainingAmount := b.amount - assignedTotal b
  if 0 < (withoutMaxList b).length then
    let share := remainingAmount / ((withoutMaxList b).length : ℚ)
    (withoutMaxList b).foldl (fun n u => addTo n u (- share)) net2
  else if 0 < remainingAmount then addTo net2 b.paidBy (- remainingAmount)
  else net2

/-- Net balances initialised to `0` for every universe member. -/
def initialNet : Rec := users.foldl (fun n u => rset n u 0) []

/-- `computeNetBalances` from the second revision. -/
def computeNetBalances2 (bills : List Bill) : Rec := bills.foldl applyBill initialNet

/-- A `{ user, amount }` entry of the creditors / debtors work lists. -/
structure Party where
  user : String
  amount : ℚ
deriving DecidableEq

/-- A `{ from, to, amount }` transfer record. -/
structure Settlement where
  «from» : String
  «to» : String
  amount : ℚ
deriving DecidableEq

/-- `list.sort((a, b) => b.amount - a.amount)`: stable descending sort by
amount (JS array sort is stable). -/
def sortByAmountDesc (l : List Party) : List Party :=
  l.mergeSort (fun a b => decide (b.amount ≤ a.amount))

/-- Creditors of `page.tsx`: entries with `balance > 0`, in entry order. -/
def creditorsOf (net : Rec) : List Party :=
  (net.filter (fun p => decide (0 < p.2))).map (fun p => ⟨p.1, p.2⟩)

/-- Debtors of `page.tsx`: entries with `balance < 0`, negated. -/
def debtorsOf (net : Rec) : List Party :=
  (net.filter (fun p => decide (p.2 < 0))).map (fun p => ⟨p.1, -p.2⟩)

/-- The matching loop of `page.tsx`: settle `min` between the heads,
remove a head when its remaining amount is exactly `0`. -/
def settleLoop : List Party → List Party → List Settlement
  | [], _ => []
  | _ :: _, [] => []
  | c :: cs, d :: ds =>
    let m := min c.amount d.amount
    ⟨d.user, c.user, m⟩ ::
      settleLoop (if c.amount - m = 0 then cs else ⟨c.user, c.amount - m⟩ :: cs)
                 (if d.amount - m = 0 then ds else ⟨d.user, d.amount - m⟩ :: ds)
termination_by C D => C.length + D.length
decreasing_by
  split <;> split <;> simp only [List.length_cons] <;> try omega
  exfalso
  rcases min_choice c.amount d.amount with h | h <;> simp_all

/-- `optimizeSettlements` from `page.tsx`. -/
def optimizeSettlements (net : Rec) : List Settlement :=
  settleLoop (sortByAmountDesc (creditorsOf net)) (sortByAmountDesc (debtorsOf net))

/-- The `0.01` tolerance of the second revision. -/
def epsilon : ℚ := 1 / 100

/-- Creditors of the second revision: entries with `balance > 0.01`. -/
def creditorsOf2 (net : Rec) : List Party :=
  (net.filter (fun p => decide (epsilon < p.2))).map (fun p => ⟨p.1, p.2⟩)

/-- Debtors of the second revision: entries with `balance < -0.01`. -/
def debtorsOf2 (net : Rec) : List Party :=
  (net.filter (fun p => decide (p.2 < -epsilon))).map (fun p => ⟨p.1, -p.2⟩)

/-- The matching loop of the second revision: remove a head once its
remaining amount drops below `0.01`. -/
def settleLoop2 : List Party → List Party → List Settlement
  | [], _ => []
  | _ :: _, [] => []
  | c :: cs, d :: ds =>
    let m := min c.amount d.amount
    ⟨d.user, c.user, m⟩ ::
      settleLoop2 (if c.amount - m < epsilon then cs else ⟨c.user, c.amount - m⟩ :: cs)
                  (if d.amount - m < epsilon then ds else ⟨d.user, d.amount - m⟩ :: ds)
termination_by C D => C.length + D.length
decreasing_by
  split <;> split <;> simp only [List.length_cons] <;> try omega
  exfalso
  rcases min_choice c.amount d.amount with h | h <;> simp_all [epsilon]

/-- `optimizeSettlements` from the second revision. -/
def optimizeSettlements2 (net : Rec) : List Settlement :=
  settleLoop2 (sortByAmountDesc (creditorsOf2 net)) (sortByAmountDesc (debtorsOf2 net))

/-- Total paid to `u` across a settlement list (sum over `to = u`). -/
def paidTo : List Settlement → String → ℚ
  | [], _ => 0
  | s :: ss, u => (if s.«to» = u then s.amount else 0) + paidTo ss u

/-- Total paid by `u` across a settlement list (sum over `from = u`). -/
def paidFrom : List Settlement → String → ℚ
  | [], _ => 0
  | s :: ss, u => (if s.«from» = u then s.amount else 0) + paidFrom ss u

/-- Applying settlements to net balances, debt-clearing direction: each
transfer raises the payer's (negative) balance and lowers the payee's
(positive) balance. -/
def applySettlements (net : Rec) (ss : List Settlement) : Rec :=
  ss.foldl (fun n s => addTo (addTo n s.«from» s.amount) s.«to» (- s.amount)) net

/-- Applying settlements read literally as claim C3 words it: subtract
the amount from the payer's balance, add it to the payee's. -/
def applySettlementsLiteral (net : Rec) (ss : List Settlement) : Rec :=
  ss.foldl (fun n s => addTo (addTo n s.«from» (- s.amount)) s.«to» s.amount) net

/-- The user names of a work list. -/
def pusers (l : List Party) : List String := l.map Party.user

/-- The total amount of a work list. -/
def totAmt (l : List Party) : ℚ := (l.map Party.amount).sum

/-! ### Theorems -/

theorem rmem_iff {r : Rec} {k : String} : rmem r k = true ↔ k ∈ rkeys r := by
  induction r with
  | nil => simp [rmem, rkeys]
  | cons p r ih =>
    rw [rmem]
    simp only [Bool.or_eq_true, beq_iff_eq, rkeys, List.map_cons, List.mem_cons]
    rw [show (k ∈ List.map Prod.fst r) = (k ∈ rkeys r) from rfl, ← ih]
    constructor
    · rintro (h | h)
      · exact Or.inl h.symm
      · exact Or.inr h
    · rintro (h | h)
      · exact Or.inl h.symm
      · exact Or.inr h

theorem rget_eq_zero_of_not_mem {r : Rec} {k : String} (h : k ∉ rkeys r) : rget r k = 0 := by
  induction r with
  | nil => rfl
  | cons p r ih =>
    simp only [rkeys, List.map_cons, List.mem_cons, not_or] at h
    rw [rget, if_neg (fun he => h.1 he.symm)]
    exact ih h.2

theorem mem_of_mem_rkeys {r : Rec} {k : String} (h : k ∈ rkeys r) : (k, rget r k) ∈ r := by
  induction r with
  | nil => simp [rkeys] at h
  | cons p r ih =>
    obtain ⟨a, b⟩ := p
    by_cases hp : a = k
    · subst hp
      rw [rget, if_pos rfl]
      exact List.mem_cons_self _ _
    · simp only [rkeys, List.map_cons, List.mem_cons] at h
      rcases h with h | h
      · exact absurd h.symm hp
      · rw [rget, if_neg hp]
        exact List.mem_cons_of_mem _ (ih h)

theorem rget_eq_of_mem {r : Rec} {k : String} {v : ℚ}
    (hnd : keysNodup r) (h : (k, v) ∈ r) : rget r k = v := by
  induction r with
  | nil => simp at h
  | cons p r ih =>
    simp only [keysNodup, List.map_cons, List.nodup_cons] at hnd
    rcases List.mem_cons.mp h with h1 | h1
    · rw [← h1, rget, if_pos rfl]
    · have hk : p.1 ≠ k := by
        intro he
        exact hnd.1 (by simpa [he] using List.mem_map_of_mem Prod.fst h1)
      rw [rget, if_neg hk]
      exact ih hnd.2 h1

theorem rget_rset_self (r : Rec) (k : String) (v : ℚ) : rget (rset r k v) k = v := by
  induction r with
  | nil => simp [rset, rget]
  | cons p r ih =>
    by_cases hp : p.1 = k
    · rw [rset, if_pos hp, rget, if_pos rfl]
    · rw [rset, if_neg hp, rget, if_neg hp, ih]

theorem rget_rset_ne (r : Rec) {k u : String} (v : ℚ) (h : k ≠ u) :
    rget (rset r k v) u = rget r u := by
  induction r with
  | nil => simp [rset, rget, h]
  | cons p r ih =>
    by_cases hp : p.1 = k
    · rw [rset, if_pos hp, rget, if_neg h, rget, if_neg (hp ▸ h)]
    · rw [rset, if_neg hp, rget, rget]
      by_cases hpu : p.1 = u
      · rw [if_pos hpu, if_pos hpu]
      · rw [if_neg hpu, if_neg hpu, ih]

theorem rget_addTo (r : Rec) (k u : String) (v : ℚ) :
    rget (addTo r k v) u = rget r u + if k = u then v else 0 := by
  unfold addTo
  by_cases h : k = u
  · subst h; simp [rget_rset_self]
  · simp [rget_rset_ne r _ h, h]

theorem rkeys_rset (r : Rec) (k : String) (v : ℚ) :
    rkeys (rset r k v) = if rmem r k then rkeys r else rkeys r ++ [k] := by
  induction r with
  | nil => simp [rset, rkeys, rmem]
  | cons p r ih =>
    by_cases hp : p.1 = k
    · rw [rset, if_pos hp]
      simp [rkeys, rmem, hp]
    · rw [rset, if_neg hp]
      have hmm : rmem (p :: r) k = rmem r k := by
        simp [rmem, beq_iff_eq, hp]
      rw [hmm]
      simp only [rkeys, List.map_cons] at *
      rw [ih]
      by_cases hm : rmem r k <;> simp [hm]

theorem keysNodup_rset {r : Rec} (k : String) (v : ℚ) (h : keysNodup r) :
    keysNodup (rset r k v) := by
  have hk := rkeys_rset r k v
  unfold keysNodup at *
  change rkeys (rset r k v) |>.Nodup
  rw [hk]
  by_cases hm : rmem r k
  · rw [if_pos hm]; exact h
  · rw [if_neg hm]
    refine List.Nodup.append h (List.nodup_singleton k) ?_
    intro a ha hb
    rw [List.mem_singleton] at hb
    subst hb
    exact hm (rmem_iff.mpr ha)

theorem keysNodup_addTo {r : Rec} (k : String) (v : ℚ) (h : keysNodup r) :
    keysNodup (addTo r k v) := keysNodup_rset k _ h

theorem rkeys_addTo (r : Rec) (k : String) (v : ℚ) :
    rkeys (addTo r k v) = if rmem r k then rkeys r else rkeys r ++ [k] := rkeys_rset r k _

theorem rkeys_subset_addTo (r : Rec) (k : String) (v : ℚ) :
    rkeys r ⊆ rkeys (addTo r k v) := by
  rw [rkeys_addTo]
  split
  · exact fun a ha => ha
  · exact fun a ha => List.mem_append_left _ ha

theorem sumValues_rset_not_mem {r : Rec} {k : String} (v : ℚ) (h : ¬ rmem r k = true) :
    sumValues (rset r k v) = sumValues r + v := by
  induction r with
  | nil => simp [rset, sumValues]
  | cons p r ih =>
    simp only [rmem, Bool.or_eq_true, beq_iff_eq, not_or] at h
    rw [rset, if_neg h.1]
    simp only [sumValues, List.map_cons, List.sum_cons] at *
    rw [ih h.2]
    ring

theorem sumValues_rset_mem {r : Rec} {k : String} (v : ℚ)
    (hnd : keysNodup r) (h : rmem r k = true) :
    sumValues (rset r k v) = sumValues r - rget r k + v := by
  induction r with
  | nil => simp [rmem] at h
  | cons p r ih =>
    simp only [keysNodup, List.map_cons, List.nodup_cons] at hnd
    by_cases hp : p.1 = k
    · rw [rset, if_pos hp, rget, if_pos hp]
      simp only [sumValues, List.map_cons, List.sum_cons]
      ring
    · have hm : rmem r k := by
        simpa [rmem, beq_iff_eq, hp] using h
      rw [rset, if_neg hp, rget, if_neg hp]
      simp only [sumValues, List.map_cons, List.sum_cons] at *
      rw [ih hnd.2 hm]
      ring

theorem sumValues_addTo {r : Rec} (k : String) (v : ℚ) (hnd : keysNodup r) :
    sumValues (addTo r k v) = sumValues r + v := by
  unfold addTo
  by_cases h : rmem r k
  · rw [sumValues_rset_mem _ hnd h]; ring
  · rw [sumValues_rset_not_mem _ h, rget_eq_zero_of_not_mem (fun hk => h (rmem_iff.mpr hk))]
    ring

unseal Rat.add Rat.sub Rat.mul Rat.inv Rat.ofScientific in
example :
    splitBill ⟨"d", 90, "A", ["A", "B", "C"], []⟩ = [("A", 30), ("B", 30), ("C", 30)] := by
  decide

unseal Rat.add Rat.sub Rat.mul Rat.inv Rat.ofScientific in
example :
    splitBill ⟨"d", 100, "A", ["A", "B"], [("B", 20)]⟩ = [("B", 20), ("A", 80)] := by
  decide

unseal Rat.add Rat.sub Rat.mul Rat.inv Rat.ofScientific in
example :
    splitBill ⟨"d", 100, "A", ["A"], [("A", 30)]⟩ = [("A", 30)] := by
  decide

unseal Rat.add Rat.sub Rat.mul Rat.inv Rat.ofScientific in
example :
    computeNetBalances [⟨"d", 100, "A", ["A"], [("A", 30)]⟩] = [("A", 70)] := by
  decide

unseal Rat.add Rat.sub Rat.mul Rat.inv Rat.ofScientific in
example :
    splitBill2 ⟨"d", 100, "C", ["A", "B"], [("A", 10), ("B", 20)]⟩ =
      [("A", 10), ("B", 20), ("C", 70)] := by
  decide

unseal Rat.add Rat.sub Rat.mul Rat.inv Rat.ofScientific in
example :
    computeNetBalances2 [] =
      [("Jacqueline", 0), ("Kevin", 0), ("Kimberly", 0), ("Silvia", 0), ("Verana", 0)] := by
  decide

unseal Rat.add Rat.sub Rat.mul Rat.inv Rat.ofScientific in
example :
    computeNetBalances2 [⟨"d", 90, "Kevin", ["Kevin", "Silvia", "Verana"], []⟩] =
      [("Jacqueline", 0), ("Kevin", 60), ("Kimberly", 0), ("Silvia", -30), ("Verana", -30)] := by
  decide

theorem foldl_rset_rget_of_not_mem (l : List String) (f : String → ℚ) (b0 : Rec) {u : String}
    (h : u ∉ l) : rget (l.foldl (fun r w => rset r w (f w)) b0) u = rget b0 u := by
  induction l generalizing b0 with
  | nil => rfl
  | cons w l ih =>
    simp only [List.mem_cons, not_or] at h
    rw [List.foldl_cons, ih _ h.2, rget_rset_ne _ _ (fun he => h.1 he.symm)]

theorem foldl_rset_rget_of_mem (l : List String) (f : String → ℚ) (b0 : Rec) {u : String}
    (h : u ∈ l) : rget (l.foldl (fun r w => rset r w (f w)) b0) u = f u := by
  induction l generalizing b0 with
  | nil => simp at h
  | cons w l ih =>
    rw [List.foldl_cons]
    by_cases hu : u ∈ l
    · exact ih _ hu
    · have hw : w = u := by
        rcases List.mem_cons.mp h with h1 | h1
        · exact h1.symm
        · exact absurd h1 hu
      subst hw
      rw [foldl_rset_rget_of_not_mem _ _ _ hu, rget_rset_self]

theorem foldl_rset_rkeys (l : List String) (f : String → ℚ) (b0 : Rec)
    (hnd : l.Nodup) (hdisj : ∀ u ∈ l, u ∉ rkeys b0) :
    rkeys (l.foldl (fun r w => rset r w (f w)) b0) = rkeys b0 ++ l := by
  induction l generalizing b0 with
  | nil => simp
  | cons w l ih =>
    simp only [List.nodup_cons] at hnd
    rw [List.foldl_cons]
    have hnm : ¬ rmem b0 w = true := fun hm => hdisj w (List.mem_cons_self w l) (rmem_iff.mp hm)
    have hkeys : rkeys (rset b0 w (f w)) = rkeys b0 ++ [w] := by
      rw [rkeys_rset, if_neg hnm]
    rw [ih _ hnd.2 ?_, hkeys, List.append_assoc, List.singleton_append]
    intro u hu
    rw [hkeys, List.mem_append, List.mem_singleton]
    rintro (hc | hc)
    · exact hdisj u (List.mem_cons_of_mem _ hu) hc
    · exact hnd.1 (hc ▸ hu)

theorem foldl_rset_sum (l : List String) (f : String → ℚ) (b0 : Rec)
    (hnd : l.Nodup) (hdisj : ∀ u ∈ l, u ∉ rkeys b0) :
    sumValues (l.foldl (fun r w => rset r w (f w)) b0) = sumValues b0 + (l.map f).sum := by
  induction l generalizing b0 with
  | nil => simp
  | cons w l ih =>
    simp only [List.nodup_cons] at hnd
    have hnm : ¬ rmem b0 w = true := fun hm => hdisj w (List.mem_cons_self w l) (rmem_iff.mp hm)
    rw [List.foldl_cons, ih _ hnd.2 ?_, sumValues_rset_not_mem _ hnm]
    · simp only [List.map_cons, List.sum_cons]
      ring
    · intro u hu
      rw [rkeys_rset, if_neg hnm, List.mem_append, List.mem_singleton]
      rintro (hc | hc)
      · exact hdisj u (List.mem_cons_of_mem _ hu) hc
      · exact hnd.1 (hc ▸ hu)

theorem foldl_addTo_keysNodup (l : List String) (f : String → ℚ) (b0 : Rec)
    (hnd : keysNodup b0) : keysNodup (l.foldl (fun r w => addTo r w (f w)) b0) := by
  induction l generalizing b0 with
  | nil => exact hnd
  | cons w l ih => exact ih _ (keysNodup_addTo _ _ hnd)

theorem foldl_addTo_sum (l : List String) (f : String → ℚ) (b0 : Rec)
    (hnd : keysNodup b0) :
    sumValues (l.foldl (fun r w => addTo r w (f w)) b0) = sumValues b0 + (l.map f).sum := by
  induction l generalizing b0 with
  | nil => simp
  | cons w l ih =>
    rw [List.foldl_cons, ih _ (keysNodup_addTo _ _ hnd), sumValues_addTo _ _ hnd]
    simp only [List.map_cons, List.sum_cons]
    ring

theorem foldl_addTo_rget_of_not_mem (l : List String) (f : String → ℚ) (b0 : Rec) {u : String}
    (h : u ∉ l) : rget (l.foldl (fun r w => addTo r w (f w)) b0) u = rget b0 u := by
  induction l generalizing b0 with
  | nil => rfl
  | cons w l ih =>
    simp only [List.mem_cons, not_or] at h
    rw [List.foldl_cons, ih _ h.2, rget_addTo, if_neg (fun he => h.1 he.symm)]
    ring

theorem foldl_addTo_rget_count_one (l : List String) (f : String → ℚ) (b0 : Rec) {u : String}
    (h : l.count u = 1) :
    rget (l.foldl (fun r w => addTo r w (f w)) b0) u = rget b0 u + f u := by
  induction l generalizing b0 with
  | nil => simp at h
  | cons w l ih =>
    by_cases hw : w = u
    · cases hw
      rw [List.count_cons_self] at h
      have hnot : u ∉ l := by
        intro hmem
        have := List.count_pos_iff.mpr hmem
        omega
      rw [List.foldl_cons, foldl_addTo_rget_of_not_mem _ _ _ hnot, rget_addTo, if_pos rfl]
    · rw [List.count_cons_of_ne (fun he => hw he.symm)] at h
      rw [List.foldl_cons, ih _ h, rget_addTo, if_neg hw]
      ring

theorem foldl_addTo_rkeys_subset (l : List String) (f : String → ℚ) (b0 : Rec) :
    rkeys b0 ⊆ rkeys (l.foldl (fun r w => addTo r w (f w)) b0) := by
  induction l generalizing b0 with
  | nil => exact fun a ha => ha
  | cons w l ih => exact fun a ha => ih _ (rkeys_subset_addTo b0 w (f w) ha)

theorem foldl_addTo_pairs_keysNodup (s : Rec) (b0 : Rec) (hnd : keysNodup b0) :
    keysNodup (s.foldl (fun n p => addTo n p.1 (- p.2)) b0) := by
  induction s generalizing b0 with
  | nil => exact hnd
  | cons p s ih => exact ih _ (keysNodup_addTo _ _ hnd)

theorem foldl_addTo_pairs_sum (s : Rec) (b0 : Rec) (hnd : keysNodup b0) :
    sumValues (s.foldl (fun n p => addTo n p.1 (- p.2)) b0) = sumValues b0 - sumValues s := by
  induction s generalizing b0 with
  | nil => simp [sumValues]
  | cons p s ih =>
    rw [List.foldl_cons, ih _ (keysNodup_addTo _ _ hnd), sumValues_addTo _ _ hnd]
    simp only [sumValues, List.map_cons, List.sum_cons]
    ring

theorem sum_map_const (l : List String) (c : ℚ) :
    (l.map (fun _ => c)).sum = (l.length : ℚ) * c := by
  induction l with
  | nil => simp
  | cons w l ih =>
    simp only [List.map_cons, List.sum_cons, List.length_cons, ih]
    push_cast
    ring

theorem sum_map_lt (l : List String) (f : String → ℚ) (c : ℚ) (hne : l ≠ [])
    (h : ∀ u ∈ l, f u < c) : (l.map f).sum < (l.length : ℚ) * c := by
  induction l with
  | nil => exact absurd rfl hne
  | cons w l ih =>
    simp only [List.map_cons, List.sum_cons, List.length_cons]
    rcases List.eq_nil_or_concat l with hl | ⟨l2, a, rfl⟩
    · subst hl
      simpa using h w (List.mem_cons_self _ _)
    · have hlt := ih (by simp) (fun u hu => h u (List.mem_cons_of_mem _ hu))
      have hw := h w (List.mem_cons_self _ _)
      push_cast
      nlinarith [hlt, hw]

/-- Core lemma: with duplicate-free participants and at least one uncapped
participant, the shares of `splitBill` sum exactly to the bill amount. -/
theorem splitBill_sum (b : Bill) (hnd : b.participants.Nodup)
    (hun : uncappedList b ≠ []) :
    sumValues (splitBill b) = b.amount := by
  unfold splitBill
  have hcnd : (cappedList b).Nodup := List.Nodup.filter _ hnd
  have hund : (uncappedList b).Nodup := List.Nodup.filter _ hnd
  have hkeys1 : rkeys ((cappedList b).foldl (fun r u => rset r u (capVal b u)) []) =
      cappedList b := by
    rw [foldl_rset_rkeys _ _ _ hcnd (by simp [rkeys])]
    rfl
  have hsum1 : sumValues ((cappedList b).foldl (fun r u => rset r u (capVal b u)) []) =
      fixedTotal b := by
    rw [foldl_rset_sum _ _ _ hcnd (by simp [rkeys])]
    simp [sumValues, fixedTotal]
  have hdisj : ∀ u ∈ uncappedList b,
      u ∉ rkeys ((cappedList b).foldl (fun r u => rset r u (capVal b u)) []) := by
    intro u hu
    rw [hkeys1]
    intro hc
    have h1 : capDefined b u = true := (List.mem_filter.mp hc).2
    have h2 : ¬ capDefined b u = true := by
      simpa using (List.mem_filter.mp hu).2
    exact h2 h1
  rw [foldl_rset_sum _ _ _ hund hdisj, hsum1, sum_map_const]
  have hlen : ((uncappedList b).length : ℚ) ≠ 0 := by
    simpa using fun hlz => hun (List.length_eq_zero.mp hlz)
  field_simp

theorem applyBillPage_keysNodup (net : Rec) (b : Bill) (hnd : keysNodup net) :
    keysNodup (applyBillPage net b) := by
  unfold applyBillPage
  exact keysNodup_addTo _ _ (foldl_addTo_pairs_keysNodup _ _ hnd)

theorem applyBillPage_sum (net : Rec) (b : Bill) (hnd : keysNodup net) :
    sumValues (applyBillPage net b) =
      sumValues net + b.amount - sumValues (splitBill b) := by
  unfold applyBillPage
  rw [sumValues_addTo _ _ (foldl_addTo_pairs_keysNodup _ _ hnd),
    foldl_addTo_pairs_sum _ _ hnd]
  ring

theorem computeNetBalances_foldl_sum (bills : List Bill) (acc : Rec) (hnd : keysNodup acc)
    (hb : ∀ b ∈ bills, b.participants.Nodup ∧ uncappedList b ≠ []) :
    sumValues (bills.foldl applyBillPage acc) = sumValues acc ∧
      keysNodup (bills.foldl applyBillPage acc) := by
  induction bills generalizing acc with
  | nil => exact ⟨rfl, hnd⟩
  | cons b bills ih =>
    have hb0 := hb b (List.mem_cons_self _ _)
    have hrest := ih (applyBillPage acc b) (applyBillPage_keysNodup _ _ hnd)
      (fun c hc => hb c (List.mem_cons_of_mem _ hc))
    rw [List.foldl_cons]
    refine ⟨?_, hrest.2⟩
    rw [hrest.1, applyBillPage_sum _ _ hnd, splitBill_sum b hb0.1 hb0.2]
    ring

theorem computeNetBalances_keysNodup (bills : List Bill) :
    keysNodup (computeNetBalances bills) := by
  unfold computeNetBalances
  have step : ∀ (bs : List Bill) (acc : Rec), keysNodup acc →
      keysNodup (bs.foldl applyBillPage acc) := by
    intro bs
    induction bs with
    | nil => exact fun acc h => h
    | cons c cs ih2 => exact fun acc h => ih2 _ (applyBillPage_keysNodup _ _ h)
  exact step bills [] (by simp [keysNodup])

/-- Claim C1, corrected form: for a bill whose participants are
duplicate-free, whose caps are non-negative, and at least one of whose
participants is uncapped, the shares of `splitBill` sum exactly to the
bill amount. -/
theorem claim_C1_split_sum (b : Bill)
    (h1 : b.participants.Nodup)
    (h2 : ∀ u ∈ b.participants, capDefined b u = true → 0 ≤ capVal b u)
    (h3 : ∃ u ∈ b.participants, capDefined b u = false) :
    sumValues (splitBill b) = b.amount := by
  refine splitBill_sum b h1 ?_
  obtain ⟨u, hu, hcap⟩ := h3
  intro hnil
  have : u ∈ uncappedList b := List.mem_filter.mpr ⟨hu, by simp [hcap]⟩
  rw [hnil] at this
  simp at this

/-- Witness for `claim_C1_split_sum` at the spec's first concrete
scenario (amount 90 split three ways). -/
theorem claim_C1_split_sum_witness :
    sumValues (splitBill ⟨"d", 90, "A", ["A", "B", "C"], []⟩) =
      (⟨"d", 90, "A", ["A", "B", "C"], []⟩ : Bill).amount :=
  claim_C1_split_sum ⟨"d", 90, "A", ["A", "B", "C"], []⟩ (by decide) (by decide)
    ⟨"A", by decide, by decide⟩

unseal Rat.add Rat.sub Rat.mul Rat.inv Rat.ofScientific in
/-- Claim C1 counterexample: a bill in which every participant is capped
(non-empty participants, non-negative caps) whose shares sum to the cap
total, not the amount: `splitBill` keeps only the 30 cap of the single
participant of a 100 bill, so the sums differ by 70. -/
theorem claim_C1_counterexample :
    splitBill ⟨"dinner", 100, "A", ["A"], [("A", 30)]⟩ = [("A", 30)] ∧
      ¬ |sumValues (splitBill ⟨"dinner", 100, "A", ["A"], [("A", 30)]⟩) -
          (⟨"dinner", 100, "A", ["A"], [("A", 30)]⟩ : Bill).amount| ≤ 1 / 1000000 := by
  constructor
  · decide
  · decide

/-- Claim C2, corrected form: over bills whose participants are
duplicate-free with at least one uncapped participant each, the net
balances of `computeNetBalances` sum to exactly `0`. -/
theorem claim_C2_zero_sum (bills : List Bill)
    (hb : ∀ b ∈ bills, b.participants.Nodup ∧ (∃ u ∈ b.participants, capDefined b u = false)) :
    sumValues (computeNetBalances bills) = 0 := by
  unfold computeNetBalances
  have h := computeNetBalances_foldl_sum bills [] (by simp [keysNodup]) ?_
  · simpa [sumValues] using h.1
  · intro b hbmem
    refine ⟨(hb b hbmem).1, ?_⟩
    obtain ⟨u, hu, hcap⟩ := (hb b hbmem).2
    intro hnil
    have : u ∈ uncappedList b := List.mem_filter.mpr ⟨hu, by simp [hcap]⟩
    rw [hnil] at this
    simp at this

/-- Witness for `claim_C2_zero_sum` at the spec's two-bill scenario. -/
theorem claim_C2_zero_sum_witness :
    sumValues (computeNetBalances
      [⟨"b1", 60, "A", ["A", "B", "C"], []⟩, ⟨"b2", 30, "B", ["A", "B"], []⟩]) = 0 :=
  claim_C2_zero_sum
    [⟨"b1", 60, "A", ["A", "B", "C"], []⟩, ⟨"b2", 30, "B", ["A", "B"], []⟩]
    (by
      intro b hb
      rcases List.mem_cons.mp hb with h | h
      · subst h
        exact ⟨by decide, ⟨"A", by decide, by decide⟩⟩
      · rcases List.mem_cons.mp h with h1 | h1
        · subst h1
          exact ⟨by decide, ⟨"A", by decide, by decide⟩⟩
        · simp at h1)

unseal Rat.add Rat.sub Rat.mul Rat.inv Rat.ofScientific in
/-- Claim C2 counterexample: a single all-capped bill (caps 30, amount
100) makes the aggregate sum 70, far outside the 1e-6 tolerance. -/
theorem claim_C2_counterexample :
    computeNetBalances [⟨"dinner", 100, "A", ["A"], [("A", 30)]⟩] = [("A", 70)] ∧
      ¬ |sumValues (computeNetBalances [⟨"dinner", 100, "A", ["A"], [("A", 30)]⟩])| ≤
          1 / 1000000 := by
  constructor
  · decide
  · decide

theorem paidTo_eq_zero {ss : List Settlement} {u : String}
    (h : ∀ s ∈ ss, s.«to» ≠ u) : paidTo ss u = 0 := by
  induction ss with
  | nil => rfl
  | cons s ss ih =>
    rw [paidTo, if_neg (h s (List.mem_cons_self _ _)), ih (fun t ht => h t (List.mem_cons_of_mem _ ht))]
    ring

theorem paidFrom_eq_zero {ss : List Settlement} {u : String}
    (h : ∀ s ∈ ss, s.«from» ≠ u) : paidFrom ss u = 0 := by
  induction ss with
  | nil => rfl
  | cons s ss ih =>
    rw [paidFrom, if_neg (h s (List.mem_cons_self _ _)),
      ih (fun t ht => h t (List.mem_cons_of_mem _ ht))]
    ring

theorem rget_applySettlements (net : Rec) (ss : List Settlement) (u : String) :
    rget (applySettlements net ss) u = rget net u + paidFrom ss u - paidTo ss u := by
  induction ss generalizing net with
  | nil => simp [applySettlements, paidFrom, paidTo]
  | cons s ss ih =>
    unfold applySettlements at *
    rw [List.foldl_cons, ih, rget_addTo, rget_addTo, paidFrom, paidTo]
    by_cases h1 : s.«from» = u <;> by_cases h2 : s.«to» = u <;> simp [h1, h2] <;> ring

theorem settleLoop_len : ∀ C D : List Party, (settleLoop C D).length ≤ C.length + D.length := by
  intro C D
  induction C, D using settleLoop.induct with
  | case1 D => simp [settleLoop]
  | case2 c cs => simp [settleLoop]
  | case3 c cs d ds m ih =>
    have hm : m = min c.amount d.amount := rfl
    rw [hm] at ih
    conv_lhs => rw [settleLoop]
    simp only [List.length_cons]
    by_cases h1 : c.amount - min c.amount d.amount = 0 <;>
      by_cases h2 : d.amount - min c.amount d.amount = 0 <;>
        simp only [h1, h2, if_true, if_false, dif_pos, dif_neg, not_false_iff, if_pos, if_neg,
          List.length_cons] at ih ⊢ <;>
        first
          | omega
          | (exfalso; rcases min_choice c.amount d.amount with h | h <;> simp_all)

theorem settleLoop2_len : ∀ C D : List Party, (settleLoop2 C D).length ≤ C.length + D.length := by
  intro C D
  induction C, D using settleLoop2.induct with
  | case1 D => simp [settleLoop2]
  | case2 c cs => simp [settleLoop2]
  | case3 c cs d ds m ih =>
    have hm : m = min c.amount d.amount := rfl
    rw [hm] at ih
    conv_lhs => rw [settleLoop2]
    simp only [List.length_cons]
    by_cases h1 : c.amount - min c.amount d.amount < epsilon <;>
      by_cases h2 : d.amount - min c.amount d.amount < epsilon <;>
        simp only [h1, h2, if_true, if_false, dif_pos, dif_neg, not_false_iff, if_pos, if_neg,
          List.length_cons] at ih ⊢ <;>
        first
          | omega
          | (exfalso
             rcases min_choice c.amount d.amount with h | h <;> simp_all [epsilon])

theorem settleLoop_shape : ∀ C D : List Party,
    (∀ p ∈ C, 0 < p.amount) → (∀ p ∈ D, 0 < p.amount) →
    ∀ s ∈ settleLoop C D, s.«from» ∈ pusers D ∧ s.«to» ∈ pusers C ∧ 0 < s.amount := by
  intro C D
  induction C, D using settleLoop.induct with
  | case1 D => simp [settleLoop]
  | case2 c cs => simp [settleLoop]
  | case3 c cs d ds m ih =>
    intro hC hD s hs
    have hm : m = min c.amount d.amount := rfl
    have hcpos := hC c (List.mem_cons_self _ _)
    have hdpos := hD d (List.mem_cons_self _ _)
    have hmpos : 0 < m := by
      rw [hm]; exact lt_min hcpos hdpos
    have hmc : m ≤ c.amount := hm ▸ min_le_left _ _
    have hmd : m ≤ d.amount := hm ▸ min_le_right _ _
    rw [settleLoop] at hs
    rcases List.mem_cons.mp hs with hs1 | hs1
    · subst hs1
      exact ⟨List.mem_cons_self _ _, List.mem_cons_self _ _, hmpos⟩
    · have hCr : ∀ p ∈ (if c.amount - m = 0 then cs else ⟨c.user, c.amount - m⟩ :: cs),
          0 < p.amount := by
        split
        · exact fun p hp => hC p (List.mem_cons_of_mem _ hp)
        · intro p hp
          rcases List.mem_cons.mp hp with hp1 | hp1
          · subst hp1
            have : 0 ≤ c.amount - m := by linarith
            rcases lt_or_eq_of_le this with h | h
            · exact h
            · exact absurd h.symm ‹¬ c.amount - m = 0›
          · exact hC p (List.mem_cons_of_mem _ hp1)
      have hDr : ∀ p ∈ (if d.amount - m = 0 then ds else ⟨d.user, d.amount - m⟩ :: ds),
          0 < p.amount := by
        split
        · exact fun p hp => hD p (List.mem_cons_of_mem _ hp)
        · intro p hp
          rcases List.mem_cons.mp hp with hp1 | hp1
          · subst hp1
            have : 0 ≤ d.amount - m := by linarith
            rcases lt_or_eq_of_le this with h | h
            · exact h
            · exact absurd h.symm ‹¬ d.amount - m = 0›
          · exact hD p (List.mem_cons_of_mem _ hp1)
      obtain ⟨hf, ht, ha⟩ := ih hCr hDr s hs1
      refine ⟨?_, ?_, ha⟩
      · simp only [pusers, List.map_cons, List.mem_cons]
        split at hf
        · exact Or.inr (by simpa [pusers] using hf)
        · simpa [pusers, List.map_cons, List.mem_cons] using hf
      · simp only [pusers, List.map_cons, List.mem_cons]
        split at ht
        · exact Or.inr (by simpa [pusers] using ht)
        · simpa [pusers, List.map_cons, List.mem_cons] using ht

theorem totAmt_nil : totAmt [] = 0 := rfl

theorem totAmt_cons (p : Party) (l : List Party) : totAmt (p :: l) = p.amount + totAmt l := by
  simp [totAmt]

theorem le_totAmt_of_mem {l : List Party} (h : ∀ p ∈ l, 0 ≤ p.amount) {c0 : Party}
    (hc0 : c0 ∈ l) : c0.amount ≤ totAmt l := by
  induction l with
  | nil => simp at hc0
  | cons p l ih =>
    rw [totAmt_cons]
    rcases List.mem_cons.mp hc0 with h1 | h1
    · subst h1
      have : 0 ≤ totAmt l := by
        have hnn : ∀ p ∈ l, 0 ≤ p.amount := fun q hq => h q (List.mem_cons_of_mem _ hq)
        clear ih hc0 h
        induction l with
        | nil => simp [totAmt]
        | cons q l ih2 =>
          rw [totAmt_cons]
          have := hnn q (List.mem_cons_self _ _)
          have := ih2 (fun r hr => hnn r (List.mem_cons_of_mem _ hr))
          linarith
      linarith
    · have := ih (fun q hq => h q (List.mem_cons_of_mem _ hq)) h1
      have := h p (List.mem_cons_self _ _)
      linarith

theorem epsilon_pos : 0 < epsilon := by norm_num [epsilon]

theorem settleLoop2_shape : ∀ C D : List Party,
    (∀ p ∈ C, 0 < p.amount) → (∀ p ∈ D, 0 < p.amount) →
    ∀ s ∈ settleLoop2 C D, s.«from» ∈ pusers D ∧ s.«to» ∈ pusers C ∧ 0 < s.amount := by
  intro C D
  induction C, D using settleLoop2.induct with
  | case1 D => simp [settleLoop2]
  | case2 c cs => simp [settleLoop2]
  | case3 c cs d ds m ih =>
    intro hC hD s hs
    have hm : m = min c.amount d.amount := rfl
    have hcpos := hC c (List.mem_cons_self _ _)
    have hdpos := hD d (List.mem_cons_self _ _)
    have hmpos : 0 < m := by
      rw [hm]; exact lt_min hcpos hdpos
    rw [settleLoop2] at hs
    rcases List.mem_cons.mp hs with hs1 | hs1
    · subst hs1
      exact ⟨List.mem_cons_self _ _, List.mem_cons_self _ _, hmpos⟩
    · have hCr : ∀ p ∈ (if c.amount - m < epsilon then cs else ⟨c.user, c.amount - m⟩ :: cs),
          0 < p.amount := by
        split
        · exact fun p hp => hC p (List.mem_cons_of_mem _ hp)
        · intro p hp
          rcases List.mem_cons.mp hp with hp1 | hp1
          · subst hp1
            have h1 : ¬ c.amount - m < epsilon := ‹_›
            have := epsilon_pos
            simp only
            linarith [not_lt.mp h1]
          · exact hC p (List.mem_cons_of_mem _ hp1)
      have hDr : ∀ p ∈ (if d.amount - m < epsilon then ds else ⟨d.user, d.amount - m⟩ :: ds),
          0 < p.amount := by
        split
        · exact fun p hp => hD p (List.mem_cons_of_mem _ hp)
        · intro p hp
          rcases List.mem_cons.mp hp with hp1 | hp1
          · subst hp1
            have h1 : ¬ d.amount - m < epsilon := ‹_›
            have := epsilon_pos
            simp only
            linarith [not_lt.mp h1]
          · exact hD p (List.mem_cons_of_mem _ hp1)
      obtain ⟨hf, ht, ha⟩ := ih hCr hDr s hs1
      refine ⟨?_, ?_, ha⟩
      · simp only [pusers, List.map_cons, List.mem_cons]
        split at hf
        · exact Or.inr (by simpa [pusers] using hf)
        · simpa [pusers, List.map_cons, List.mem_cons] using hf
      · simp only [pusers, List.map_cons, List.mem_cons]
        split at ht
        · exact Or.inr (by simpa [pusers] using ht)
        · simpa [pusers, List.map_cons, List.mem_cons] using ht

/-- Residual bound for creditors: after the `page.tsx` matching loop, the
unpaid part of each creditor is non-negative and at most the (positive
part of the) imbalance between the two work lists. -/
theorem settleLoop_creditor_residual : ∀ C D : List Party,
    (∀ p ∈ C, 0 < p.amount) → (∀ p ∈ D, 0 < p.amount) → (pusers C).Nodup →
    ∀ c0 ∈ C, 0 ≤ c0.amount - paidTo (settleLoop C D) c0.user ∧
      c0.amount - paidTo (settleLoop C D) c0.user ≤ max (totAmt C - totAmt D) 0 := by
  intro C D
  induction C, D using settleLoop.induct with
  | case1 D =>
    intro _ _ _ c0 hc0
    simp at hc0
  | case2 c cs =>
    intro hC _ _ c0 hc0
    rw [settleLoop]
    constructor
    · have := hC c0 hc0
      simp only [paidTo]
      linarith
    · have h1 : c0.amount ≤ totAmt (c :: cs) :=
        le_totAmt_of_mem (fun p hp => le_of_lt (hC p hp)) hc0
      simp only [paidTo, totAmt_nil, sub_zero]
      exact le_max_of_le_left (by linarith)
  | case3 c cs d ds m ih =>
    intro hC hD hnd c0 hc0
    simp only [dite_eq_ite] at ih
    have hm : m = min c.amount d.amount := rfl
    have hcpos := hC c (List.mem_cons_self _ _)
    have hdpos := hD d (List.mem_cons_self _ _)
    have hmc : m ≤ c.amount := hm ▸ min_le_left _ _
    have hmd : m ≤ d.amount := hm ▸ min_le_right _ _
    have hCr : ∀ p ∈ (if c.amount - m = 0 then cs else ⟨c.user, c.amount - m⟩ :: cs),
        0 < p.amount := by
      split
      · exact fun p hp => hC p (List.mem_cons_of_mem _ hp)
      · intro p hp
        rcases List.mem_cons.mp hp with hp1 | hp1
        · subst hp1
          have h0 : 0 ≤ c.amount - m := by linarith
          rcases lt_or_eq_of_le h0 with h | h
          · exact h
          · exact absurd h.symm ‹¬ c.amount - m = 0›
        · exact hC p (List.mem_cons_of_mem _ hp1)
    have hDr : ∀ p ∈ (if d.amount - m = 0 then ds else ⟨d.user, d.amount - m⟩ :: ds),
        0 < p.amount := by
      split
      · exact fun p hp => hD p (List.mem_cons_of_mem _ hp)
      · intro p hp
        rcases List.mem_cons.mp hp with hp1 | hp1
        · subst hp1
          have h0 : 0 ≤ d.amount - m := by linarith
          rcases lt_or_eq_of_le h0 with h | h
          · exact h
          · exact absurd h.symm ‹¬ d.amount - m = 0›
        · exact hD p (List.mem_cons_of_mem _ hp1)
    have hndr : (pusers (if c.amount - m = 0 then cs else ⟨c.user, c.amount - m⟩ :: cs)).Nodup := by
      split
      · exact (by simpa [pusers] using hnd : (c.user :: pusers cs).Nodup).of_cons
      · simpa [pusers] using hnd
    have htotC : totAmt (if c.amount - m = 0 then cs else ⟨c.user, c.amount - m⟩ :: cs) =
        totAmt (c :: cs) - m := by
      split
      · have : m = c.amount := by linarith [sub_eq_zero.mp ‹c.amount - m = 0›]
        rw [totAmt_cons, this]
        ring
      · rw [totAmt_cons, totAmt_cons]
        simp only
        ring
    have htotD : totAmt (if d.amount - m = 0 then ds else ⟨d.user, d.amount - m⟩ :: ds) =
        totAmt (d :: ds) - m := by
      split
      · have : m = d.amount := by linarith [sub_eq_zero.mp ‹d.amount - m = 0›]
        rw [totAmt_cons, this]
        ring
      · rw [totAmt_cons, totAmt_cons]
        simp only
        ring
    have hB : max (totAmt (if c.amount - m = 0 then cs else ⟨c.user, c.amount - m⟩ :: cs) -
        totAmt (if d.amount - m = 0 then ds else ⟨d.user, d.amount - m⟩ :: ds)) 0 =
        max (totAmt (c :: cs) - totAmt (d :: ds)) 0 := by
      rw [htotC, htotD]
      congr 1
      ring
    rw [settleLoop]
    rcases List.mem_cons.mp hc0 with hc1 | hc1
    · subst hc1
      rw [paidTo, if_pos rfl]
      by_cases hzero : c0.amount - m = 0
      · have hnotin : c0.user ∉ pusers cs := by
          have : (c0.user :: pusers cs).Nodup := by simpa [pusers] using hnd
          exact this.not_mem
        have hpz : paidTo (settleLoop
            (if c0.amount - m = 0 then cs else ⟨c0.user, c0.amount - m⟩ :: cs)
            (if d.amount - m = 0 then ds else ⟨d.user, d.amount - m⟩ :: ds)) c0.user = 0 := by
          apply paidTo_eq_zero
          intro s hs
          have := (settleLoop_shape _ _ hCr hDr s hs).2.1
          intro he
          rw [he] at this
          rw [if_pos hzero] at this
          exact hnotin this
        rw [hpz]
        constructor
        · linarith
        · have := le_max_right (totAmt (c0 :: cs) - totAmt (d :: ds)) (0 : ℚ)
          linarith
      · have hmem : (⟨c0.user, c0.amount - m⟩ : Party) ∈
            (if c0.amount - m = 0 then cs else ⟨c0.user, c0.amount - m⟩ :: cs) := by
          rw [if_neg hzero]
          exact List.mem_cons_self _ _
        have hres := ih hCr hDr hndr _ hmem
        rw [hB] at hres
        constructor
        · have := hres.1
          simp only at this
          linarith
        · have := hres.2
          simp only at this
          linarith
    · have hne : c.user ≠ c0.user := by
        have h1 : (c.user :: pusers cs).Nodup := by simpa [pusers] using hnd
        intro he
        exact h1.not_mem (he ▸ List.mem_map_of_mem Party.user hc1)
      rw [paidTo, if_neg hne]
      have hmem : c0 ∈ (if c.amount - m = 0 then cs else ⟨c.user, c.amount - m⟩ :: cs) := by
        split
        · exact hc1
        · exact List.mem_cons_of_mem _ hc1
      have hres := ih hCr hDr hndr _ hmem
      rw [hB] at hres
      constructor
      · have := hres.1
        linarith
      · have := hres.2
        linarith

/-- Residual bound for debtors, mirror image of
`settleLoop_creditor_residual`. -/
theorem settleLoop_debtor_residual : ∀ C D : List Party,
    (∀ p ∈ C, 0 < p.amount) → (∀ p ∈ D, 0 < p.amount) → (pusers D).Nodup →
    ∀ d0 ∈ D, 0 ≤ d0.amount - paidFrom (settleLoop C D) d0.user ∧
      d0.amount - paidFrom (settleLoop C D) d0.user ≤ max (totAmt D - totAmt C) 0 := by
  intro C D
  induction C, D using settleLoop.induct with
  | case1 D =>
    intro _ hD _ d0 hd0
    rw [settleLoop]
    constructor
    · have := hD d0 hd0
      simp only [paidFrom]
      linarith
    · have h1 : d0.amount ≤ totAmt D :=
        le_totAmt_of_mem (fun p hp => le_of_lt (hD p hp)) hd0
      simp only [paidFrom, totAmt_nil, sub_zero]
      exact le_max_of_le_left (by linarith)
  | case2 c cs =>
    intro _ _ _ d0 hd0
    simp at hd0
  | case3 c cs d ds m ih =>
    intro hC hD hnd d0 hd0
    simp only [dite_eq_ite] at ih
    have hm : m = min c.amount d.amount := rfl
    have hcpos := hC c (List.mem_cons_self _ _)
    have hdpos := hD d (List.mem_cons_self _ _)
    have hmc : m ≤ c.amount := hm ▸ min_le_left _ _
    have hmd : m ≤ d.amount := hm ▸ min_le_right _ _
    have hCr : ∀ p ∈ (if c.amount - m = 0 then cs else ⟨c.user, c.amount - m⟩ :: cs),
        0 < p.amount := by
      split
      · exact fun p hp => hC p (List.mem_cons_of_mem _ hp)
      · intro p hp
        rcases List.mem_cons.mp hp with hp1 | hp1
        · subst hp1
          have h0 : 0 ≤ c.amount - m := by linarith
          rcases lt_or_eq_of_le h0 with h | h
          · exact h
          · exact absurd h.symm ‹¬ c.amount - m = 0›
        · exact hC p (List.mem_cons_of_mem _ hp1)
    have hDr : ∀ p ∈ (if d.amount - m = 0 then ds else ⟨d.user, d.amount - m⟩ :: ds),
        0 < p.amount := by
      split
      · exact fun p hp => hD p (List.mem_cons_of_mem _ hp)
      · intro p hp
        rcases List.mem_cons.mp hp with hp1 | hp1
        · subst hp1
          have h0 : 0 ≤ d.amount - m := by linarith
          rcases lt_or_eq_of_le h0 with h | h
          · exact h
          · exact absurd h.symm ‹¬ d.amount - m = 0›
        · exact hD p (List.mem_cons_of_mem _ hp1)
    have hndr : (pusers (if d.amount - m = 0 then ds else ⟨d.user, d.amount - m⟩ :: ds)).Nodup := by
      split
      · exact (by simpa [pusers] using hnd : (d.user :: pusers ds).Nodup).of_cons
      · simpa [pusers] using hnd
    have htotC : totAmt (if c.amount - m = 0 then cs else ⟨c.user, c.amount - m⟩ :: cs) =
        totAmt (c :: cs) - m := by
      split
      · have : m = c.amount := by linarith [sub_eq_zero.mp ‹c.amount - m = 0›]
        rw [totAmt_cons, this]
        ring
      · rw [totAmt_cons, totAmt_cons]
        simp only
        ring
    have htotD : totAmt (if d.amount - m = 0 then ds else ⟨d.user, d.amount - m⟩ :: ds) =
        totAmt (d :: ds) - m := by
      split
      · have : m = d.amount := by linarith [sub_eq_zero.mp ‹d.amount - m = 0›]
        rw [totAmt_cons, this]
        ring
      · rw [totAmt_cons, totAmt_cons]
        simp only
        ring
    have hB : max (totAmt (if d.amount - m = 0 then ds else ⟨d.user, d.amount - m⟩ :: ds) -
        totAmt (if c.amount - m = 0 then cs else ⟨c.user, c.amount - m⟩ :: cs)) 0 =
        max (totAmt (d :: ds) - totAmt (c :: cs)) 0 := by
      rw [htotC, htotD]
      congr 1
      ring
    rw [settleLoop]
    rcases List.mem_cons.mp hd0 with hd1 | hd1
    · subst hd1
      rw [paidFrom, if_pos rfl]
      by_cases hzero : d0.amount - m = 0
      · have hnotin : d0.user ∉ pusers ds := by
          have : (d0.user :: pusers ds).Nodup := by simpa [pusers] using hnd
          exact this.not_mem
        have hpz : paidFrom (settleLoop
            (if c.amount - m = 0 then cs else ⟨c.user, c.amount - m⟩ :: cs)
            (if d0.amount - m = 0 then ds else ⟨d0.user, d0.amount - m⟩ :: ds)) d0.user = 0 := by
          apply paidFrom_eq_zero
          intro s hs
          have := (settleLoop_shape _ _ hCr hDr s hs).1
          intro he
          rw [he] at this
          rw [if_pos hzero] at this
          exact hnotin this
        rw [hpz]
        constructor
        · linarith
        · have := le_max_right (totAmt (d0 :: ds) - totAmt (c :: cs)) (0 : ℚ)
          linarith
      · have hmem : (⟨d0.user, d0.amount - m⟩ : Party) ∈
            (if d0.amount - m = 0 then ds else ⟨d0.user, d0.amount - m⟩ :: ds) := by
          rw [if_neg hzero]
          exact List.mem_cons_self _ _
        have hres := ih hCr hDr hndr _ hmem
        rw [hB] at hres
        constructor
        · have := hres.1
          simp only at this
          linarith
        · have := hres.2
          simp only at this
          linarith
    · have hne : d.user ≠ d0.user := by
        have h1 : (d.user :: pusers ds).Nodup := by simpa [pusers] using hnd
        intro he
        exact h1.not_mem (he ▸ List.mem_map_of_mem Party.user hd1)
      rw [paidFrom, if_neg hne]
      have hmem : d0 ∈ (if d.amount - m = 0 then ds else ⟨d.user, d.amount - m⟩ :: ds) := by
        split
        · exact hd1
        · exact List.mem_cons_of_mem _ hd1
      have hres := ih hCr hDr hndr _ hmem
      rw [hB] at hres
      constructor
      · have := hres.1
        linarith
      · have := hres.2
        linarith

theorem mem_creditorsOf {net : Rec} {u : String} {a : ℚ} :
    (⟨u, a⟩ : Party) ∈ creditorsOf net ↔ (u, a) ∈ net ∧ 0 < a := by
  unfold creditorsOf
  constructor
  · intro h
    obtain ⟨p, hp, he⟩ := List.mem_map.mp h
    obtain ⟨hmem, hpos⟩ := List.mem_filter.mp hp
    obtain ⟨h1, h2⟩ := Party.mk.injEq .. ▸ he
    have hpe : p = (u, a) := by
      obtain ⟨x, y⟩ := p
      simp only at h1 h2
      rw [Party.mk.injEq] at he
      exact Prod.ext he.1 he.2
    rw [hpe] at hmem hpos
    exact ⟨hmem, by simpa using hpos⟩
  · rintro ⟨hmem, hpos⟩
    refine List.mem_map.mpr ⟨(u, a), List.mem_filter.mpr ⟨hmem, by simpa using hpos⟩, rfl⟩

theorem mem_debtorsOf {net : Rec} {u : String} {a : ℚ} :
    (⟨u, a⟩ : Party) ∈ debtorsOf net ↔ (u, -a) ∈ net ∧ -a < 0 := by
  unfold debtorsOf
  constructor
  · intro h
    obtain ⟨p, hp, he⟩ := List.mem_map.mp h
    obtain ⟨hmem, hneg⟩ := List.mem_filter.mp hp
    have hpe : p = (u, -a) := by
      obtain ⟨x, y⟩ := p
      rw [Party.mk.injEq] at he
      simp only at he
      exact Prod.ext he.1 (by rw [← he.2]; ring)
    rw [hpe] at hmem hneg
    exact ⟨hmem, by simpa using hneg⟩
  · rintro ⟨hmem, hneg⟩
    refine List.mem_map.mpr ⟨(u, -a), List.mem_filter.mpr ⟨hmem, by simpa using hneg⟩, ?_⟩
    simp

theorem creditorsOf_pos (net : Rec) : ∀ p ∈ creditorsOf net, 0 < p.amount := by
  intro p hp
  obtain ⟨q, hq, he⟩ := List.mem_map.mp hp
  obtain ⟨_, hpos⟩ := List.mem_filter.mp hq
  rw [← he]
  simpa using hpos

theorem debtorsOf_pos (net : Rec) : ∀ p ∈ debtorsOf net, 0 < p.amount := by
  intro p hp
  obtain ⟨q, hq, he⟩ := List.mem_map.mp hp
  obtain ⟨_, hneg⟩ := List.mem_filter.mp hq
  rw [← he]
  simp only
  have : q.2 < 0 := by simpa using hneg
  linarith

theorem pusers_creditorsOf (net : Rec) :
    pusers (creditorsOf net) = (net.filter (fun p => decide (0 < p.2))).map Prod.fst := by
  unfold pusers creditorsOf
  rw [List.map_map]
  rfl

theorem pusers_debtorsOf (net : Rec) :
    pusers (debtorsOf net) = (net.filter (fun p => decide (p.2 < 0))).map Prod.fst := by
  unfold pusers debtorsOf
  rw [List.map_map]
  rfl

theorem pusers_creditorsOf_nodup {net : Rec} (hnd : keysNodup net) :
    (pusers (creditorsOf net)).Nodup := by
  rw [pusers_creditorsOf]
  exact List.Nodup.sublist (List.Sublist.map Prod.fst (List.filter_sublist net)) hnd

theorem pusers_debtorsOf_nodup {net : Rec} (hnd : keysNodup net) :
    (pusers (debtorsOf net)).Nodup := by
  rw [pusers_debtorsOf]
  exact List.Nodup.sublist (List.Sublist.map Prod.fst (List.filter_sublist net)) hnd

theorem mem_pusers_creditorsOf {net : Rec} {u : String} :
    u ∈ pusers (creditorsOf net) ↔ ∃ a, (u, a) ∈ net ∧ 0 < a := by
  rw [pusers_creditorsOf]
  constructor
  · intro h
    obtain ⟨p, hp, he⟩ := List.mem_map.mp h
    obtain ⟨hmem, hpos⟩ := List.mem_filter.mp hp
    exact ⟨p.2, by rw [← he]; exact hmem, by simpa using hpos⟩
  · rintro ⟨a, hmem, hpos⟩
    exact List.mem_map.mpr ⟨(u, a), List.mem_filter.mpr ⟨hmem, by simpa using hpos⟩, rfl⟩

theorem mem_pusers_debtorsOf {net : Rec} {u : String} :
    u ∈ pusers (debtorsOf net) ↔ ∃ a, (u, a) ∈ net ∧ a < 0 := by
  rw [pusers_debtorsOf]
  constructor
  · intro h
    obtain ⟨p, hp, he⟩ := List.mem_map.mp h
    obtain ⟨hmem, hneg⟩ := List.mem_filter.mp hp
    exact ⟨p.2, by rw [← he]; exact hmem, by simpa using hneg⟩
  · rintro ⟨a, hmem, hneg⟩
    exact List.mem_map.mpr ⟨(u, a), List.mem_filter.mpr ⟨hmem, by simpa using hneg⟩, rfl⟩

theorem creditors_debtors_disjoint {net : Rec} (hnd : keysNodup net) {u : String}
    (hc : u ∈ pusers (creditorsOf net)) (hd : u ∈ pusers (debtorsOf net)) : False := by
  obtain ⟨a, hma, hpa⟩ := mem_pusers_creditorsOf.mp hc
  obtain ⟨b, hmb, hnb⟩ := mem_pusers_debtorsOf.mp hd
  have h1 := rget_eq_of_mem hnd hma
  have h2 := rget_eq_of_mem hnd hmb
  rw [h1] at h2
  subst h2
  linarith

theorem totAmt_creditors_sub_debtors (net : Rec) :
    totAmt (creditorsOf net) - totAmt (debtorsOf net) = sumValues net := by
  induction net with
  | nil => simp [creditorsOf, debtorsOf, totAmt, sumValues]
  | cons p net ih =>
    have hC : creditorsOf (p :: net) =
        if 0 < p.2 then ⟨p.1, p.2⟩ :: creditorsOf net else creditorsOf net := by
      unfold creditorsOf
      by_cases h : 0 < p.2
      · rw [List.filter_cons_of_pos (by simpa using h), List.map_cons, if_pos h]
      · rw [List.filter_cons_of_neg (by simpa using h), if_neg h]
    have hD : debtorsOf (p :: net) =
        if p.2 < 0 then ⟨p.1, -p.2⟩ :: debtorsOf net else debtorsOf net := by
      unfold debtorsOf
      by_cases h : p.2 < 0
      · rw [List.filter_cons_of_pos (by simpa using h), List.map_cons, if_pos h]
      · rw [List.filter_cons_of_neg (by simpa using h), if_neg h]
    have hS : sumValues (p :: net) = p.2 + sumValues net := by simp [sumValues]
    rcases lt_trichotomy p.2 0 with h | h | h
    · rw [hC, hD, if_neg (by linarith), if_pos h, totAmt_cons, hS]
      simp only
      linarith [ih]
    · rw [hC, hD, if_neg (by rw [h]; exact lt_irrefl 0), if_neg (by rw [h]; exact lt_irrefl 0),
        hS, h]
      linarith [ih]
    · rw [hC, hD, if_pos h, if_neg (by linarith), totAmt_cons, hS]
      simp only
      linarith [ih]

theorem sortByAmountDesc_perm (l : List Party) : (sortByAmountDesc l).Perm l :=
  List.mergeSort_perm l _

theorem mem_sortByAmountDesc {l : List Party} {p : Party} :
    p ∈ sortByAmountDesc l ↔ p ∈ l := (sortByAmountDesc_perm l).mem_iff

theorem pusers_sort_mem {l : List Party} {u : String} :
    u ∈ pusers (sortByAmountDesc l) ↔ u ∈ pusers l :=
  ((sortByAmountDesc_perm l).map Party.user).mem_iff

theorem pusers_sort_nodup {l : List Party} (h : (pusers l).Nodup) :
    (pusers (sortByAmountDesc l)).Nodup :=
  (((sortByAmountDesc_perm l).map Party.user).nodup_iff).mpr h

theorem totAmt_sort (l : List Party) : totAmt (sortByAmountDesc l) = totAmt l :=
  ((sortByAmountDesc_perm l).map Party.amount).sum_eq

/-- Claim C3, corrected form: whenever the net balances sum to zero within
a tolerance `eps`, applying every settlement of `optimizeSettlements`
debt-clearing-wise (amount added to the payer's balance and subtracted
from the payee's) leaves every participant within `eps` of zero. -/
theorem claim_C3_settlements_zero (net : Rec) (eps : ℚ) (heps : 0 ≤ eps)
    (hnd : keysNodup net) (hsum : |sumValues net| ≤ eps) (u : String) :
    |rget (applySettlements net (optimizeSettlements net)) u| ≤ eps := by
  have hCpos : ∀ p ∈ sortByAmountDesc (creditorsOf net), 0 < p.amount :=
    fun p hp => creditorsOf_pos net p (mem_sortByAmountDesc.mp hp)
  have hDpos : ∀ p ∈ sortByAmountDesc (debtorsOf net), 0 < p.amount :=
    fun p hp => debtorsOf_pos net p (mem_sortByAmountDesc.mp hp)
  have hCnd : (pusers (sortByAmountDesc (creditorsOf net))).Nodup :=
    pusers_sort_nodup (pusers_creditorsOf_nodup hnd)
  have hDnd : (pusers (sortByAmountDesc (debtorsOf net))).Nodup :=
    pusers_sort_nodup (pusers_debtorsOf_nodup hnd)
  have hdiff : totAmt (sortByAmountDesc (creditorsOf net)) -
      totAmt (sortByAmountDesc (debtorsOf net)) = sumValues net := by
    rw [totAmt_sort, totAmt_sort]
    exact totAmt_creditors_sub_debtors net
  have hBc : max (totAmt (sortByAmountDesc (creditorsOf net)) -
      totAmt (sortByAmountDesc (debtorsOf net))) 0 ≤ eps := by
    rw [hdiff]
    exact max_le (le_trans (le_abs_self _) hsum) heps
  have hBd : max (totAmt (sortByAmountDesc (debtorsOf net)) -
      totAmt (sortByAmountDesc (creditorsOf net))) 0 ≤ eps := by
    have : totAmt (sortByAmountDesc (debtorsOf net)) -
        totAmt (sortByAmountDesc (creditorsOf net)) = -(sumValues net) := by
      rw [← hdiff]; ring
    rw [this]
    exact max_le (le_trans (neg_le_abs _) hsum) heps
  have hfrom0 : ∀ s ∈ optimizeSettlements net, s.«from» ∈ pusers (debtorsOf net) :=
    fun s hs => pusers_sort_mem.mp (settleLoop_shape _ _ hCpos hDpos s hs).1
  have hto0 : ∀ s ∈ optimizeSettlements net, s.«to» ∈ pusers (creditorsOf net) :=
    fun s hs => pusers_sort_mem.mp (settleLoop_shape _ _ hCpos hDpos s hs).2.1
  rw [rget_applySettlements]
  by_cases hk : u ∈ rkeys net
  · have hmem : (u, rget net u) ∈ net := mem_of_mem_rkeys hk
    rcases lt_trichotomy (rget net u) 0 with hneg | hzero | hpos
    · have hdun : u ∈ pusers (debtorsOf net) :=
        mem_pusers_debtorsOf.mpr ⟨rget net u, hmem, hneg⟩
      have hcun : u ∉ pusers (creditorsOf net) :=
        fun hc => creditors_debtors_disjoint hnd hc hdun
      have hpt : paidTo (optimizeSettlements net) u = 0 :=
        paidTo_eq_zero (fun s hs he => hcun (he ▸ hto0 s hs))
      have hpmem : (⟨u, -(rget net u)⟩ : Party) ∈ sortByAmountDesc (debtorsOf net) := by
        rw [mem_sortByAmountDesc]
        exact mem_debtorsOf.mpr ⟨by simpa using hmem, by simpa using hneg⟩
      have hres := settleLoop_debtor_residual _ _ hCpos hDpos hDnd _ hpmem
      simp only at hres
      obtain ⟨hr1, hr2⟩ := hres
      have hr3 := le_trans hr2 hBd
      rw [hpt, show optimizeSettlements net =
        settleLoop (sortByAmountDesc (creditorsOf net)) (sortByAmountDesc (debtorsOf net))
        from rfl]
      rw [abs_le]
      constructor <;> linarith
    · have hcun : u ∉ pusers (creditorsOf net) := by
        intro hc
        obtain ⟨a, hma, hpa⟩ := mem_pusers_creditorsOf.mp hc
        have := rget_eq_of_mem hnd hma
        rw [hzero] at this
        linarith [this ▸ hpa]
      have hdun : u ∉ pusers (debtorsOf net) := by
        intro hd
        obtain ⟨a, hma, hpa⟩ := mem_pusers_debtorsOf.mp hd
        have := rget_eq_of_mem hnd hma
        rw [hzero] at this
        linarith [this ▸ hpa]
      have hpt : paidTo (optimizeSettlements net) u = 0 :=
        paidTo_eq_zero (fun s hs he => hcun (he ▸ hto0 s hs))
      have hpf : paidFrom (optimizeSettlements net) u = 0 :=
        paidFrom_eq_zero (fun s hs he => hdun (he ▸ hfrom0 s hs))
      rw [hpt, hpf, hzero]
      simpa using heps
    · have hcun : u ∈ pusers (creditorsOf net) :=
        mem_pusers_creditorsOf.mpr ⟨rget net u, hmem, hpos⟩
      have hdun : u ∉ pusers (debtorsOf net) :=
        fun hd => creditors_debtors_disjoint hnd hcun hd
      have hpf : paidFrom (optimizeSettlements net) u = 0 :=
        paidFrom_eq_zero (fun s hs he => hdun (he ▸ hfrom0 s hs))
      have hpmem : (⟨u, rget net u⟩ : Party) ∈ sortByAmountDesc (creditorsOf net) := by
        rw [mem_sortByAmountDesc]
        exact mem_creditorsOf.mpr ⟨hmem, hpos⟩
      have hres := settleLoop_creditor_residual _ _ hCpos hDpos hCnd _ hpmem
      simp only at hres
      obtain ⟨hr1, hr2⟩ := hres
      have hr3 := le_trans hr2 hBc
      rw [hpf, show optimizeSettlements net =
        settleLoop (sortByAmountDesc (creditorsOf net)) (sortByAmountDesc (debtorsOf net))
        from rfl]
      rw [abs_le]
      constructor <;> linarith
  · have hz : rget net u = 0 := rget_eq_zero_of_not_mem hk
    have hcun : u ∉ pusers (creditorsOf net) := by
      intro hc
      obtain ⟨a, hma, _⟩ := mem_pusers_creditorsOf.mp hc
      exact hk (List.mem_map_of_mem Prod.fst hma)
    have hdun : u ∉ pusers (debtorsOf net) := by
      intro hd
      obtain ⟨a, hma, _⟩ := mem_pusers_debtorsOf.mp hd
      exact hk (List.mem_map_of_mem Prod.fst hma)
    have hpt : paidTo (optimizeSettlements net) u = 0 :=
      paidTo_eq_zero (fun s hs he => hcun (he ▸ hto0 s hs))
    have hpf : paidFrom (optimizeSettlements net) u = 0 :=
      paidFrom_eq_zero (fun s hs he => hdun (he ▸ hfrom0 s hs))
    rw [hpt, hpf, hz]
    simpa using heps

unseal Rat.add Rat.sub Rat.mul Rat.inv Rat.ofScientific in
/-- Witness for `claim_C3_settlements_zero` at the spec's first scenario. -/
theorem claim_C3_settlements_zero_witness :
    |rget (applySettlements [("A", (60:ℚ)), ("B", -30), ("C", -30)]
      (optimizeSettlements [("A", (60:ℚ)), ("B", -30), ("C", -30)])) "A"| ≤ epsilon :=
  claim_C3_settlements_zero [("A", (60:ℚ)), ("B", -30), ("C", -30)] epsilon
    (by norm_num [epsilon]) (by decide) (by decide) "A"

unseal Rat.add Rat.sub Rat.mul Rat.inv Rat.ofScientific List.merge List.mergeSort in
/-- Claim C3 counterexample: read literally (subtract the amount from the
payer `from`, add it to the payee `to`), applying the settlements to the
zero-sum balances of the spec's first scenario drives participant `A`
from 60 to 120 instead of 0. -/
theorem claim_C3_counterexample :
    sumValues [("A", (60:ℚ)), ("B", -30), ("C", -30)] = 0 ∧
    rget (applySettlementsLiteral [("A", (60:ℚ)), ("B", -30), ("C", -30)]
      (optimizeSettlements [("A", (60:ℚ)), ("B", -30), ("C", -30)])) "A" = 120 ∧
    ¬ |rget (applySettlementsLiteral [("A", (60:ℚ)), ("B", -30), ("C", -30)]
      (optimizeSettlements [("A", (60:ℚ)), ("B", -30), ("C", -30)])) "A"| ≤ epsilon := by
  have hc : sortByAmountDesc (creditorsOf [("A", (60:ℚ)), ("B", -30), ("C", -30)]) =
      [⟨"A", 60⟩] := by decide
  have hd : sortByAmountDesc (debtorsOf [("A", (60:ℚ)), ("B", -30), ("C", -30)]) =
      [⟨"B", 30⟩, ⟨"C", 30⟩] := by decide
  have hs : optimizeSettlements [("A", (60:ℚ)), ("B", -30), ("C", -30)] =
      [⟨"B", "A", 30⟩, ⟨"C", "A", 30⟩] := by
    rw [optimizeSettlements, hc, hd]
    norm_num [settleLoop]
  refine ⟨by decide, ?_, ?_⟩
  · rw [hs]
    decide
  · rw [hs]
    decide

/-- Claim C8 (confirmed): every settlement of `optimizeSettlements` has a
strictly positive amount and distinct `from` and `to`. -/
theorem claim_C8_settlement_shape (net : Rec) (hnd : keysNodup net) :
    ∀ s ∈ optimizeSettlements net, 0 < s.amount ∧ s.«from» ≠ s.«to» := by
  intro s hs
  have hCpos : ∀ p ∈ sortByAmountDesc (creditorsOf net), 0 < p.amount :=
    fun p hp => creditorsOf_pos net p (mem_sortByAmountDesc.mp hp)
  have hDpos : ∀ p ∈ sortByAmountDesc (debtorsOf net), 0 < p.amount :=
    fun p hp => debtorsOf_pos net p (mem_sortByAmountDesc.mp hp)
  obtain ⟨hf, ht, ha⟩ := settleLoop_shape _ _ hCpos hDpos s hs
  refine ⟨ha, fun he => ?_⟩
  have hfu : s.«from» ∈ pusers (debtorsOf net) := pusers_sort_mem.mp hf
  have htu : s.«to» ∈ pusers (creditorsOf net) := pusers_sort_mem.mp ht
  rw [he] at hfu
  exact creditors_debtors_disjoint hnd htu hfu

unseal Rat.add Rat.sub Rat.mul Rat.inv Rat.ofScientific List.merge List.mergeSort in
/-- Witness for `claim_C8_settlement_shape` on a two-person net. -/
theorem claim_C8_settlement_shape_witness :
    0 < (⟨"B", "A", 5⟩ : Settlement).amount ∧
      (⟨"B", "A", 5⟩ : Settlement).«from» ≠ (⟨"B", "A", 5⟩ : Settlement).«to» :=
  claim_C8_settlement_shape [("A", (5:ℚ)), ("B", -5)] (by decide) ⟨"B", "A", 5⟩ (by
    have hc : sortByAmountDesc (creditorsOf [("A", (5:ℚ)), ("B", -5)]) = [⟨"A", 5⟩] := by
      decide
    have hd : sortByAmountDesc (debtorsOf [("A", (5:ℚ)), ("B", -5)]) = [⟨"B", 5⟩] := by
      decide
    have hs : optimizeSettlements [("A", (5:ℚ)), ("B", -5)] = [⟨"B", "A", 5⟩] := by
      rw [optimizeSettlements, hc, hd]
      norm_num [settleLoop]
    rw [hs]
    exact List.mem_cons_self _ _)

theorem length_filter_add_filter_le {α : Type} (l : List α) (p q : α → Bool)
    (h : ∀ x ∈ l, ¬(p x = true ∧ q x = true)) :
    (l.filter p).length + (l.filter q).length ≤ l.length := by
  induction l with
  | nil => simp
  | cons x l ih =>
    have hx := h x (List.mem_cons_self _ _)
    have ihl := ih (fun y hy => h y (List.mem_cons_of_mem _ hy))
    by_cases hp : p x = true
    · have hq : ¬ q x = true := fun hq => hx ⟨hp, hq⟩
      rw [List.filter_cons_of_pos hp, List.filter_cons_of_neg hq]
      simp only [List.length_cons]
      omega
    · rw [List.filter_cons_of_neg hp]
      by_cases hq : q x = true
      · rw [List.filter_cons_of_pos hq]
        simp only [List.length_cons]
        omega
      · rw [List.filter_cons_of_neg hq]
        simp only [List.length_cons]
        omega

/-- Claim C7 (confirmed): both optimizers produce at most one settlement
per work-list entry, so at most one per net-balance entry — the matching
loop ends after finitely many steps, each removing at least one party. -/
theorem claim_C7_terminates (net : Rec) :
    (optimizeSettlements net).length ≤ net.length ∧
      (optimizeSettlements2 net).length ≤ net.length := by
  constructor
  · unfold optimizeSettlements
    refine le_trans (settleLoop_len _ _) ?_
    rw [(sortByAmountDesc_perm _).length_eq, (sortByAmountDesc_perm _).length_eq]
    unfold creditorsOf debtorsOf
    rw [List.length_map, List.length_map]
    refine length_filter_add_filter_le net _ _ ?_
    rintro x _ ⟨h1, h2⟩
    simp only [decide_eq_true_eq] at h1 h2
    linarith
  · unfold optimizeSettlements2
    refine le_trans (settleLoop2_len _ _) ?_
    rw [(sortByAmountDesc_perm _).length_eq, (sortByAmountDesc_perm _).length_eq]
    unfold creditorsOf2 debtorsOf2
    rw [List.length_map, List.length_map]
    refine length_filter_add_filter_le net _ _ ?_
    rintro x _ ⟨h1, h2⟩
    simp only [decide_eq_true_eq] at h1 h2
    have := epsilon_pos
    linarith

theorem creditorsOf2_pos (net : Rec) : ∀ p ∈ creditorsOf2 net, 0 < p.amount := by
  intro p hp
  obtain ⟨q, hq, he⟩ := List.mem_map.mp hp
  obtain ⟨_, hpos⟩ := List.mem_filter.mp hq
  rw [← he]
  have := epsilon_pos
  have h2 : epsilon < q.2 := by simpa using hpos
  simp only
  linarith

theorem debtorsOf2_pos (net : Rec) : ∀ p ∈ debtorsOf2 net, 0 < p.amount := by
  intro p hp
  obtain ⟨q, hq, he⟩ := List.mem_map.mp hp
  obtain ⟨_, hneg⟩ := List.mem_filter.mp hq
  rw [← he]
  have := epsilon_pos
  have h2 : q.2 < -epsilon := by simpa using hneg
  simp only
  linarith

theorem mem_pusers_creditorsOf2 {net : Rec} {u : String} :
    u ∈ pusers (creditorsOf2 net) ↔ ∃ a, (u, a) ∈ net ∧ epsilon < a := by
  unfold pusers creditorsOf2
  rw [List.map_map]
  constructor
  · intro h
    obtain ⟨p, hp, he⟩ := List.mem_map.mp h
    obtain ⟨hmem, hpos⟩ := List.mem_filter.mp hp
    exact ⟨p.2, by rw [← (show p.1 = u from he)]; exact hmem, by simpa using hpos⟩
  · rintro ⟨a, hmem, hpos⟩
    exact List.mem_map.mpr ⟨(u, a), List.mem_filter.mpr ⟨hmem, by simpa using hpos⟩, rfl⟩

theorem mem_pusers_debtorsOf2 {net : Rec} {u : String} :
    u ∈ pusers (debtorsOf2 net) ↔ ∃ a, (u, a) ∈ net ∧ a < -epsilon := by
  unfold pusers debtorsOf2
  rw [List.map_map]
  constructor
  · intro h
    obtain ⟨p, hp, he⟩ := List.mem_map.mp h
    obtain ⟨hmem, hneg⟩ := List.mem_filter.mp hp
    exact ⟨p.2, by rw [← (show p.1 = u from he)]; exact hmem, by simpa using hneg⟩
  · rintro ⟨a, hmem, hneg⟩
    exact List.mem_map.mpr ⟨(u, a), List.mem_filter.mpr ⟨hmem, by simpa using hneg⟩, rfl⟩

/-- Claim C6 (confirmed): the second revision's optimizer partitions with
tolerance `0.01` — only balances above `epsilon` become creditors, only
balances below `-epsilon` become debtors, and a participant whose balance
is within `epsilon` of zero is excluded: no settlement mentions them. -/
theorem claim_C6_epsilon_partition (net : Rec) (hnd : keysNodup net) :
    (∀ u, u ∈ pusers (creditorsOf2 net) ↔ u ∈ rkeys net ∧ epsilon < rget net u) ∧
    (∀ u, u ∈ pusers (debtorsOf2 net) ↔ u ∈ rkeys net ∧ rget net u < -epsilon) ∧
    (∀ u, |rget net u| ≤ epsilon →
      ∀ s ∈ optimizeSettlements2 net, s.«from» ≠ u ∧ s.«to» ≠ u) := by
  have hcred : ∀ u, u ∈ pusers (creditorsOf2 net) ↔ u ∈ rkeys net ∧ epsilon < rget net u := by
    intro u
    rw [mem_pusers_creditorsOf2]
    constructor
    · rintro ⟨a, hmem, hpos⟩
      have := rget_eq_of_mem hnd hmem
      exact ⟨List.mem_map_of_mem Prod.fst hmem, this ▸ hpos⟩
    · rintro ⟨hk, hpos⟩
      exact ⟨rget net u, mem_of_mem_rkeys hk, hpos⟩
  have hdebt : ∀ u, u ∈ pusers (debtorsOf2 net) ↔ u ∈ rkeys net ∧ rget net u < -epsilon := by
    intro u
    rw [mem_pusers_debtorsOf2]
    constructor
    · rintro ⟨a, hmem, hneg⟩
      have := rget_eq_of_mem hnd hmem
      exact ⟨List.mem_map_of_mem Prod.fst hmem, this ▸ hneg⟩
    · rintro ⟨hk, hneg⟩
      exact ⟨rget net u, mem_of_mem_rkeys hk, hneg⟩
  refine ⟨hcred, hdebt, ?_⟩
  intro u hu s hs
  have hCpos : ∀ p ∈ sortByAmountDesc (creditorsOf2 net), 0 < p.amount :=
    fun p hp => creditorsOf2_pos net p (mem_sortByAmountDesc.mp hp)
  have hDpos : ∀ p ∈ sortByAmountDesc (debtorsOf2 net), 0 < p.amount :=
    fun p hp => debtorsOf2_pos net p (mem_sortByAmountDesc.mp hp)
  obtain ⟨hf, ht, _⟩ := settleLoop2_shape _ _ hCpos hDpos s hs
  obtain ⟨hu1, hu2⟩ := abs_le.mp hu
  constructor
  · intro he
    have := (hdebt u).mp (pusers_sort_mem.mp (he ▸ hf))
    linarith [this.2]
  · intro he
    have := (hcred u).mp (pusers_sort_mem.mp (he ▸ ht))
    linarith [this.2]

unseal Rat.add Rat.sub Rat.mul Rat.inv Rat.ofScientific in
/-- Witness for `claim_C6_epsilon_partition`: a balance of 0.02 is a
creditor of the 0.01-tolerance partition. -/
theorem claim_C6_epsilon_partition_witness :
    "A" ∈ pusers (creditorsOf2 [("A", (1:ℚ)/50), ("B", -(1:ℚ)/50)]) ↔
      "A" ∈ rkeys [("A", (1:ℚ)/50), ("B", -(1:ℚ)/50)] ∧
        epsilon < rget [("A", (1:ℚ)/50), ("B", -(1:ℚ)/50)] "A" :=
  (claim_C6_epsilon_partition [("A", (1:ℚ)/50), ("B", -(1:ℚ)/50)] (by decide)).1 "A"

unseal Rat.add Rat.sub Rat.mul Rat.inv Rat.ofScientific in
/-- Claim C9: the engine performs no validation and signals no error kind
for a malformed bill.  For a bill with empty `participants` the splitter
returns the empty record and the aggregator still credits the payer with
the full amount, silently corrupting the totals instead of failing
fast. -/
theorem claim_C9_malformed_bill_not_signalled :
    splitBill ⟨"dinner", 100, "A", [], []⟩ = [] ∧
    computeNetBalances [⟨"dinner", 100, "A", [], []⟩] = [("A", 100)] ∧
    ¬ |sumValues (computeNetBalances [⟨"dinner", 100, "A", [], []⟩])| ≤ 1 / 1000000 := by
  refine ⟨by decide, by decide, by decide⟩

unseal Rat.add Rat.sub Rat.mul Rat.inv Rat.ofScientific in
/-- Claim C5 counterexample: in `splitBill` of `page.tsx` an all-capped
bill with a shortfall (amount 100, single participant capped at 30,
payer `C` outside the participants and without any share) leaves the
payer with nothing: the 70 shortfall is silently dropped, not assigned
to `paidBy`. -/
theorem claim_C5_counterexample :
    splitBill ⟨"taxi", 100, "C", ["A"], [("A", 30)]⟩ = [("A", 30)] ∧
    rget (splitBill ⟨"taxi", 100, "C", ["A"], [("A", 30)]⟩) "C" = 0 ∧
    ¬ rget (splitBill ⟨"taxi", 100, "C", ["A"], [("A", 30)]⟩) "C" = 100 - 30 := by
  refine ⟨by decide, by decide, by decide⟩

/-- Claim C5, corrected form: in the second revision's splitter, when
every participant has a cap strictly below the equal share (so nobody
remains uncapped and `remainingAmount > 0`) and the payer is not a
participant, the payer is assigned exactly the whole shortfall
`amount - sum of caps`. -/
theorem claim_C5_shortfall_to_payer (b : Bill)
    (hne : b.participants ≠ [])
    (hcap : ∀ u ∈ b.participants, capDefined b u = true ∧ capVal b u < equalShare b)
    (hpb : b.paidBy ∉ b.participants) :
    rget (splitBill2 b) b.paidBy = b.amount - (b.participants.map (capVal b)).sum := by
  have hall : cappedList2 b = b.participants := by
    rw [cappedList2, List.filter_eq_self]
    intro u hu
    obtain ⟨h1, h2⟩ := hcap u hu
    simp [cappedBelow, h1, h2]
  have hnone : uncappedList2 b = [] := by
    rw [uncappedList2, List.filter_eq_nil_iff]
    intro u hu
    obtain ⟨h1, h2⟩ := hcap u hu
    simp [cappedBelow, h1, h2]
  have hta : totalAssigned2 b = (b.participants.map (capVal b)).sum := by
    rw [totalAssigned2, hall]
  have hlen : ((b.participants.length : ℚ)) ≠ 0 := by
    intro h
    rw [Nat.cast_eq_zero] at h
    exact hne (List.length_eq_zero.mp h)
  have hlt : (b.participants.map (capVal b)).sum < b.amount := by
    have h1 := sum_map_lt b.participants (capVal b) (equalShare b) hne
      (fun u hu => (hcap u hu).2)
    rw [equalShare] at h1
    calc (b.participants.map (capVal b)).sum
        < (b.participants.length : ℚ) * (b.amount / (b.participants.length : ℚ)) := h1
      _ = b.amount := by field_simp
  have happ : splitBill2 b = rset ((cappedList2 b).foldl (fun r u => rset r u (capVal b u))
      (b.participants.foldl (fun r u => rset r u 0) [])) b.paidBy
      (b.amount - totalAssigned2 b) := by
    unfold splitBill2
    rw [hnone]
    rw [if_neg (by simp), if_pos (by rw [hta]; linarith)]
  rw [happ, rget_rset_self, hta]

unseal Rat.add Rat.sub Rat.mul Rat.inv Rat.ofScientific in
/-- Witness for `claim_C5_shortfall_to_payer`: both participants capped
below the equal share 50, payer outside; the payer owes the 70
shortfall. -/
theorem claim_C5_shortfall_to_payer_witness :
    rget (splitBill2 ⟨"w", 100, "C", ["A", "B"], [("A", 10), ("B", 20)]⟩) "C" =
      (⟨"w", 100, "C", ["A", "B"], [("A", 10), ("B", 20)]⟩ : Bill).amount -
        (((⟨"w", 100, "C", ["A", "B"], [("A", 10), ("B", 20)]⟩ : Bill).participants.map
          (capVal ⟨"w", 100, "C", ["A", "B"], [("A", 10), ("B", 20)]⟩)).sum) :=
  claim_C5_shortfall_to_payer ⟨"w", 100, "C", ["A", "B"], [("A", 10), ("B", 20)]⟩
    (by decide) (by decide) (by decide)

/-- Claim C10 (confirmed): in the second revision's aggregator, a
participant with a cap entry of exactly `0` lands among
`participantsWithoutMax` and is debited a full equal share of the
remaining amount, not a fixed share of `0`. -/
theorem claim_C10_zero_cap_full_share (net : Rec) (b : Bill) (u : String)
    (hnd : b.participants.Nodup) (hu : u ∈ b.participants)
    (hdef : capDefined b u = true) (hzero : capVal b u = 0) (hne : u ≠ b.paidBy) :
    u ∈ withoutMaxList b ∧
      rget (applyBill net b) u =
        rget net u - (b.amount - assignedTotal b) / ((withoutMaxList b).length : ℚ) := by
  have hpos : hasPosCap b u = false := by simp [hasPosCap, hdef, hzero]
  have humem : u ∈ withoutMaxList b := List.mem_filter.mpr ⟨hu, by simp [hpos]⟩
  refine ⟨humem, ?_⟩
  have hlen : 0 < (withoutMaxList b).length :=
    List.length_pos.mpr (fun h => by rw [h] at humem; simp at humem)
  have hnotmax : u ∉ withMaxList b := by
    intro h
    have := (List.mem_filter.mp h).2
    rw [hpos] at this
    simp at this
  have hcount : (withoutMaxList b).count u = 1 :=
    List.count_eq_one_of_mem (List.Nodup.filter _ hnd) humem
  have happ : applyBill net b = (withoutMaxList b).foldl
      (fun n w => addTo n w (- ((b.amount - assignedTotal b) /
        ((withoutMaxList b).length : ℚ))))
      ((withMaxList b).foldl (fun n w => addTo n w (- capVal b w))
        (addTo net b.paidBy b.amount)) := by
    unfold applyBill
    rw [if_pos hlen]
  rw [happ, foldl_addTo_rget_count_one _ _ _ hcount,
    foldl_addTo_rget_of_not_mem _ _ _ hnotmax, rget_addTo,
    if_neg (fun he => hne he.symm)]
  ring

/-- Witness for `claim_C10_zero_cap_full_share`: participant `A` capped
at exactly 0 in a 90 bill shares the 60 remainder with `C`. -/
theorem claim_C10_zero_cap_full_share_witness :
    "A" ∈ withoutMaxList ⟨"w", 90, "P", ["A", "B", "C"], [("A", 0), ("B", 30)]⟩ ∧
      rget (applyBill [] ⟨"w", 90, "P", ["A", "B", "C"], [("A", 0), ("B", 30)]⟩) "A" =
        rget [] "A" -
          ((⟨"w", 90, "P", ["A", "B", "C"], [("A", 0), ("B", 30)]⟩ : Bill).amount -
            assignedTotal ⟨"w", 90, "P", ["A", "B", "C"], [("A", 0), ("B", 30)]⟩) /
          ((withoutMaxList ⟨"w", 90, "P", ["A", "B", "C"], [("A", 0), ("B", 30)]⟩).length : ℚ) :=
  claim_C10_zero_cap_full_share [] ⟨"w", 90, "P", ["A", "B", "C"], [("A", 0), ("B", 30)]⟩ "A"
    (by decide) (by decide) (by decide) (by decide) (by decide)

theorem applyBill_eq (net : Rec) (b : Bill) : applyBill net b =
    (if 0 < (withoutMaxList b).length then
      (withoutMaxList b).foldl
        (fun n w => addTo n w (- ((b.amount - assignedTotal b) /
          ((withoutMaxList b).length : ℚ))))
        ((withMaxList b).foldl (fun n w => addTo n w (- capVal b w))
          (addTo net b.paidBy b.amount))
    else if 0 < b.amount - assignedTotal b then
      addTo ((withMaxList b).foldl (fun n w => addTo n w (- capVal b w))
        (addTo net b.paidBy b.amount)) b.paidBy (- (b.amount - assignedTotal b))
    else (withMaxList b).foldl (fun n w => addTo n w (- capVal b w))
      (addTo net b.paidBy b.amount)) := rfl

theorem rkeys_subset_applyBill (net : Rec) (b : Bill) :
    rkeys net ⊆ rkeys (applyBill net b) := by
  rw [applyBill_eq]
  split
  · exact fun a ha => foldl_addTo_rkeys_subset _ _ _
      (foldl_addTo_rkeys_subset _ _ _ (rkeys_subset_addTo _ _ _ ha))
  · split
    · exact fun a ha => rkeys_subset_addTo _ _ _
        (foldl_addTo_rkeys_subset _ _ _ (rkeys_subset_addTo _ _ _ ha))
    · exact fun a ha => foldl_addTo_rkeys_subset _ _ _ (rkeys_subset_addTo _ _ _ ha)

theorem rget_applyBill_untouched (net : Rec) (b : Bill) {u : String}
    (h1 : u ≠ b.paidBy) (h2 : u ∉ b.participants) :
    rget (applyBill net b) u = rget net u := by
  have hwm : u ∉ withMaxList b := fun h => h2 (List.mem_filter.mp h).1
  have hwo : u ∉ withoutMaxList b := fun h => h2 (List.mem_filter.mp h).1
  have hpay : rget (addTo net b.paidBy b.amount) u = rget net u := by
    rw [rget_addTo, if_neg (fun he => h1 he.symm)]
    ring
  rw [applyBill_eq]
  split
  · rw [foldl_addTo_rget_of_not_mem _ _ _ hwo, foldl_addTo_rget_of_not_mem _ _ _ hwm, hpay]
  · split
    · rw [rget_addTo, if_neg (fun he => h1 he.symm),
        foldl_addTo_rget_of_not_mem _ _ _ hwm, hpay]
      ring
    · rw [foldl_addTo_rget_of_not_mem _ _ _ hwm, hpay]

unseal Rat.add Rat.sub Rat.mul Rat.inv Rat.ofScientific in
/-- Claim C4 (confirmed, for the second revision's aggregator with its
fixed `users` universe): every universe member has an entry; a universe
member appearing in no bill keeps net balance `0`; the empty bill
collection gives every universe member balance `0` and an empty
settlement list. -/
theorem claim_C4_universe_coverage (bills : List Bill) :
    (∀ u ∈ users, u ∈ rkeys (computeNetBalances2 bills)) ∧
    (∀ u ∈ users, (∀ b ∈ bills, u ≠ b.paidBy ∧ u ∉ b.participants) →
      rget (computeNetBalances2 bills) u = 0) ∧
    computeNetBalances2 [] =
      [("Jacqueline", 0), ("Kevin", 0), ("Kimberly", 0), ("Silvia", 0), ("Verana", 0)] ∧
    optimizeSettlements2 (computeNetBalances2 []) = [] := by
  have hsub : ∀ (bs : List Bill) (acc : Rec), rkeys acc ⊆ rkeys (bs.foldl applyBill acc) := by
    intro bs
    induction bs with
    | nil => exact fun acc a ha => ha
    | cons b bs ih => exact fun acc a ha => ih _ (rkeys_subset_applyBill _ _ ha)
  have huntouched : ∀ (bs : List Bill) (acc : Rec) (u : String),
      (∀ b ∈ bs, u ≠ b.paidBy ∧ u ∉ b.participants) →
      rget (bs.foldl applyBill acc) u = rget acc u := by
    intro bs
    induction bs with
    | nil => exact fun acc u _ => rfl
    | cons b bs ih =>
      intro acc u hb
      rw [List.foldl_cons, ih _ _ (fun c hc => hb c (List.mem_cons_of_mem _ hc)),
        rget_applyBill_untouched _ _ (hb b (List.mem_cons_self _ _)).1
          (hb b (List.mem_cons_self _ _)).2]
  refine ⟨?_, ?_, by decide, ?_⟩
  · intro u hu
    exact hsub bills initialNet (show u ∈ rkeys initialNet by fin_cases hu <;> decide)
  · intro u hu hb
    rw [show computeNetBalances2 bills = bills.foldl applyBill initialNet from rfl,
      huntouched bills initialNet u hb]
    fin_cases hu <;> decide
  · have hcred : creditorsOf2 (computeNetBalances2 []) = [] := by decide
    have hdebt : debtorsOf2 (computeNetBalances2 []) = [] := by decide
    rw [optimizeSettlements2, hcred, hdebt]
    have hsort : sortByAmountDesc ([] : List Party) = [] := by
      simp [sortByAmountDesc]
    rw [hsort]
    simp [settleLoop2]

/-- Witness for `claim_C4_universe_coverage`: `Jacqueline` takes part in
no bill of a one-bill collection and keeps balance `0`. -/
theorem claim_C4_universe_coverage_witness :
    rget (computeNetBalances2 [⟨"d", 50, "Kevin", ["Kevin", "Silvia"], []⟩]) "Jacqueline" = 0 :=
  (claim_C4_universe_coverage [⟨"d", 50, "Kevin", ["Kevin", "Silvia"], []⟩]).2.1 "Jacqueline"
    (by decide) (by decide)

end Expenses
